import Mathlib

set_option maxHeartbeats 1000000

/-!
Verification of the FinanceBook category-taxonomy and payment-tagging engine
(`app/main.py`, `app/models.py`, `app/constants.py`) against its design
specification.  The Python code is shallowly embedded: SQLModel rows become
structures over `Nat` ids, the database becomes explicit lists of rows, each
endpoint becomes a pure function returning `Except ApiError`, and the
session-rollback behaviour of `get_session` (pending changes are discarded
whenever an exception escapes before `commit`) is modelled by `Except.error`
carrying no new database state.
-/

namespace FB

/-- Strings are modelled as lists of characters. -/
abbrev Str := List Char

/-- Membership in the whitespace class matched by the regex in
`_normalize_name` (the ASCII part of the Python whitespace class). -/
def isWs (c : Char) : Bool :=
  c = ' ' || c = '\t' || c = '\n' || c = '\r' || c = '\x0b' || c = '\x0c'

/-- The `.strip()` applied by `_normalize_name` before the substitution:
whitespace is removed from both ends. -/
def pyStrip (l : Str) : Str :=
  ((l.dropWhile isWs).reverse.dropWhile isWs).reverse

/-- The substitution `re.sub(r"\s+", " ", ·)`: every maximal run of
whitespace characters is replaced by a single space (the run is consumed
down to its last character, which is emitted as the space). -/
def collapseRuns : Str → Str
  | [] => []
  | [c] => if isWs c then [' '] else [c]
  | c :: d :: cs =>
    if isWs c && isWs d then collapseRuns (d :: cs)
    else (if isWs c then ' ' else c) :: collapseRuns (d :: cs)

/-- Embedding of `_normalize_name`: strip both ends, then collapse internal
whitespace runs to single spaces. -/
def normalizeL (l : Str) : Str := collapseRuns (pyStrip l)

theorem collapseRuns_nil : collapseRuns [] = [] := rfl

theorem collapseRuns_cons_pos {c : Char} {cs : Str} (h : isWs c = false) :
    collapseRuns (c :: cs) = c :: collapseRuns cs := by
  cases cs with
  | nil => simp [collapseRuns, h]
  | cons d cs2 => simp [collapseRuns, h]

theorem collapseRuns_cons_ws {c : Char} {cs : Str} (h : isWs c = true) :
    collapseRuns (c :: cs) = ' ' :: collapseRuns (cs.dropWhile isWs) := by
  induction cs generalizing c with
  | nil => simp [collapseRuns, h]
  | cons d cs2 ih =>
    by_cases hd : isWs d
    · have h1 : collapseRuns (c :: d :: cs2) = collapseRuns (d :: cs2) := by
        simp [collapseRuns, h, hd]
      rw [h1, ih hd, List.dropWhile_cons, if_pos hd]
    · have h1 : collapseRuns (c :: d :: cs2) = ' ' :: collapseRuns (d :: cs2) := by
        simp [collapseRuns, h, hd]
      rw [h1, List.dropWhile_cons, if_neg hd]

/-- The head of the list, if any, is not whitespace. -/
def NoWsHead (l : Str) : Prop := ∀ c, l.head? = some c → isWs c = false

/-- The last element of the list, if any, is not whitespace. -/
def NoWsLast (l : Str) : Prop := ∀ c, l.getLast? = some c → isWs c = false

theorem noWsHead_dropWhile (l : Str) : NoWsHead (l.dropWhile isWs) := by
  induction l with
  | nil => intro c hc; simp at hc
  | cons a as ih =>
    by_cases h : isWs a
    · simpa [List.dropWhile_cons, h] using ih
    · intro c hc
      simp [List.dropWhile_cons, h] at hc
      rcases hc with ⟨rfl, -⟩
      exact Bool.not_eq_true _ |>.mp h

theorem dropWhile_eq_self_of_noWsHead {l : Str} (h : NoWsHead l) :
    l.dropWhile isWs = l := by
  cases l with
  | nil => rfl
  | cons a as =>
    have : isWs a = false := h a rfl
    simp [List.dropWhile_cons, this]

theorem noWsHead_of_prefix {s t : Str} (hp : s <+: t) (h : NoWsHead t) :
    NoWsHead s := by
  cases s with
  | nil => intro c hc; simp at hc
  | cons a as =>
    intro c hc
    obtain ⟨r, rfl⟩ := hp
    exact h c (by simpa using hc)

theorem noWsHead_pyStrip (l : Str) : NoWsHead (pyStrip l) := by
  have h1 : NoWsHead (l.dropWhile isWs) := noWsHead_dropWhile l
  have hsuf : ((l.dropWhile isWs).reverse.dropWhile isWs) <:+
      (l.dropWhile isWs).reverse := List.dropWhile_suffix _
  have hp : pyStrip l <+: l.dropWhile isWs := by
    have := (@List.reverse_prefix Char ((l.dropWhile isWs).reverse.dropWhile isWs)
      ((l.dropWhile isWs).reverse)).mpr hsuf
    simpa [pyStrip] using this
  exact noWsHead_of_prefix hp h1

theorem noWsLast_pyStrip (l : Str) : NoWsLast (pyStrip l) := by
  intro c hc
  rw [pyStrip, List.getLast?_reverse] at hc
  exact noWsHead_dropWhile _ c hc

theorem getLast?_cons_of_ne_nil {c : Char} {cs : Str} (h : cs ≠ []) :
    (c :: cs).getLast? = cs.getLast? := by
  cases cs with
  | nil => exact absurd rfl h
  | cons b bs => simp [List.getLast?_cons_cons]

theorem getLast?_append_right {r s : Str} (h : s ≠ []) :
    (r ++ s).getLast? = s.getLast? := by
  induction r with
  | nil => rfl
  | cons a as ih =>
    have hne : as ++ s ≠ [] := by
      simp [h]
    rw [List.cons_append, getLast?_cons_of_ne_nil hne, ih]

theorem getLast?_of_suffix {s t : Str} (hs : s <:+ t) (h : s ≠ []) :
    t.getLast? = s.getLast? := by
  obtain ⟨r, rfl⟩ := hs
  exact getLast?_append_right h

theorem collapseRuns_eq_nil_iff {l : Str} : collapseRuns l = [] ↔ l = [] := by
  cases l with
  | nil => simp [collapseRuns_nil]
  | cons c cs =>
    constructor
    · intro h
      by_cases hw : isWs c
      · rw [collapseRuns_cons_ws hw] at h
        simp at h
      · rw [collapseRuns_cons_pos (by simpa using hw)] at h
        simp at h
    · intro h
      simp at h

theorem noWsLast_collapseRuns_aux :
    ∀ (n : Nat) (l : Str), l.length ≤ n → NoWsLast l →
      NoWsLast (collapseRuns l) := by
  intro n
  induction n with
  | zero =>
    intro l hl h
    have : l = [] := List.eq_nil_of_length_eq_zero (Nat.le_zero.mp hl)
    subst this
    simpa [collapseRuns_nil] using h
  | succ n ih =>
    intro l hl h
    cases l with
    | nil => simpa [collapseRuns_nil] using h
    | cons c cs =>
      by_cases hws : isWs c
      · have hcs : cs ≠ [] := by
          rintro rfl
          have hfalse := h c (by simp)
          rw [hfalse] at hws
          exact Bool.false_ne_true hws
        have hlast : NoWsLast cs := by
          intro x hx
          exact h x (by rw [getLast?_cons_of_ne_nil hcs]; exact hx)
        have hd : cs.dropWhile isWs ≠ [] := by
          intro hnil
          rw [List.dropWhile_eq_nil_iff] at hnil
          have htrue := hnil _ (List.getLast_mem hcs)
          have hfalse := hlast (cs.getLast hcs)
            (List.getLast?_eq_getLast_of_ne_nil hcs)
          rw [hfalse] at htrue
          exact Bool.false_ne_true htrue
        have hdlast : NoWsLast (cs.dropWhile isWs) := by
          intro x hx
          apply hlast x
          rw [getLast?_of_suffix (List.dropWhile_suffix _) hd]
          exact hx
        have hdlen : (cs.dropWhile isWs).length ≤ n := by
          have h1 : (cs.dropWhile isWs).length ≤ cs.length :=
            List.Sublist.length_le
              (List.IsSuffix.sublist (List.dropWhile_suffix isWs))
          have h2 : cs.length ≤ n := Nat.le_of_succ_le_succ hl
          omega
        have ihd := ih (cs.dropWhile isWs) hdlen hdlast
        intro x hx
        rw [collapseRuns_cons_ws hws] at hx
        have hcne : collapseRuns (cs.dropWhile isWs) ≠ [] :=
          fun hn => hd (collapseRuns_eq_nil_iff.mp hn)
        rw [getLast?_cons_of_ne_nil hcne] at hx
        exact ihd x hx
      · have hws2 : isWs c = false := by simpa using hws
        intro x hx
        rw [collapseRuns_cons_pos hws2] at hx
        by_cases hcs : cs = []
        · subst hcs
          rw [collapseRuns_nil] at hx
          obtain rfl : c = x := by simpa using hx
          exact h c (by simp)
        · have hlast : NoWsLast cs := by
            intro y hy
            exact h y (by rw [getLast?_cons_of_ne_nil hcs]; exact hy)
          have hcne : collapseRuns cs ≠ [] :=
            fun hn => hcs (collapseRuns_eq_nil_iff.mp hn)
          rw [getLast?_cons_of_ne_nil hcne] at hx
          exact ih cs (Nat.le_of_succ_le_succ hl) hlast x hx

theorem noWsLast_collapseRuns {l : Str} (h : NoWsLast l) :
    NoWsLast (collapseRuns l) :=
  noWsLast_collapseRuns_aux l.length l (le_refl _) h

theorem noWsHead_collapseRuns {l : Str} (h : NoWsHead l) :
    NoWsHead (collapseRuns l) := by
  cases l with
  | nil => intro c hc; rw [collapseRuns_nil] at hc; simp at hc
  | cons c cs =>
    have hc : isWs c = false := h c rfl
    intro x hx
    rw [collapseRuns_cons_pos hc] at hx
    obtain rfl : c = x := by simpa using hx
    exact hc

theorem pyStrip_eq_self {l : Str} (h1 : NoWsHead l) (h2 : NoWsLast l) :
    pyStrip l = l := by
  rw [pyStrip, dropWhile_eq_self_of_noWsHead h1]
  have hrev : NoWsHead l.reverse := by
    intro c hc
    rw [List.head?_reverse] at hc
    exact h2 c hc
  rw [dropWhile_eq_self_of_noWsHead hrev, List.reverse_reverse]

theorem collapseRuns_idem_aux :
    ∀ (n : Nat) (l : Str), l.length ≤ n →
      collapseRuns (collapseRuns l) = collapseRuns l := by
  intro n
  induction n with
  | zero =>
    intro l hl
    have : l = [] := List.eq_nil_of_length_eq_zero (Nat.le_zero.mp hl)
    subst this
    rfl
  | succ n ih =>
    intro l hl
    cases l with
    | nil => rfl
    | cons c cs =>
      by_cases hws : isWs c
      · rw [collapseRuns_cons_ws hws,
          collapseRuns_cons_ws (show isWs ' ' = true by decide)]
        have hnh : NoWsHead (collapseRuns (cs.dropWhile isWs)) :=
          noWsHead_collapseRuns (noWsHead_dropWhile cs)
        have hdlen : (cs.dropWhile isWs).length ≤ n := by
          have h1 : (cs.dropWhile isWs).length ≤ cs.length :=
            List.Sublist.length_le
              (List.IsSuffix.sublist (List.dropWhile_suffix isWs))
          have h2 : cs.length ≤ n := Nat.le_of_succ_le_succ hl
          omega
        rw [dropWhile_eq_self_of_noWsHead hnh, ih _ hdlen]
      · have hws2 : isWs c = false := by simpa using hws
        rw [collapseRuns_cons_pos hws2, collapseRuns_cons_pos hws2,
          ih cs (Nat.le_of_succ_le_succ hl)]

theorem collapseRuns_idem (l : Str) :
    collapseRuns (collapseRuns l) = collapseRuns l :=
  collapseRuns_idem_aux l.length l (le_refl _)

theorem normalizeL_idem (l : Str) : normalizeL (normalizeL l) = normalizeL l := by
  have h1 : NoWsHead (normalizeL l) :=
    noWsHead_collapseRuns (noWsHead_pyStrip l)
  have h2 : NoWsLast (normalizeL l) :=
    noWsLast_collapseRuns (noWsLast_pyStrip l)
  rw [normalizeL, pyStrip_eq_self h1 h2, normalizeL, collapseRuns_idem]

/-! ## Data model (`app/models.py`) -/

/-- Calendar date, the payload of the `date` column (claims never inspect
it beyond construction). -/
structure DateV where
  year : Nat
  month : Nat
  day : Nat
  deriving DecidableEq, Repr

/-- Row of the `categorytype` table: a user-defined classification
dimension. -/
structure CategoryType where
  id : Nat
  name : Str
  description : Option Str
  user_id : Option Nat
  deriving DecidableEq, Repr

/-- Row of the `category` table: a tag node inside one dimension's tree. -/
structure Category where
  id : Nat
  name : Str
  type_id : Nat
  parent_id : Option Nat
  icon_file : Option Str
  user_id : Option Nat
  deriving DecidableEq, Repr

/-- Row of the `recipient` table. -/
structure Recipient where
  id : Nat
  name : Str
  address : Option Str
  user_id : Option Nat
  deriving DecidableEq, Repr

/-- Row of the `paymentitem` table.  The attachment path columns
(`invoice_path`, `product_image_path`) belong to the out-of-scope file
storage concern and carry no behaviour in the embedded operations, so they
are not modelled.  `amount` is modelled as an exact rational. -/
structure PaymentItem where
  id : Nat
  amount : Rat
  date : DateV
  periodic : Bool
  description : Option Str
  recipient_id : Option Nat
  standard_category_id : Option Nat
  user_id : Option Nat
  deriving DecidableEq, Repr

/-- Row of the `paymentitemcategorylink` join table. -/
structure PaymentItemCategoryLink where
  payment_item_id : Nat
  category_id : Nat
  deriving DecidableEq, Repr

/-- The persistent store: one list per table plus the autoincrement
counters of the tables the embedded operations insert into. -/
structure DB where
  categoryTypes : List CategoryType
  categories : List Category
  recipients : List Recipient
  items : List PaymentItem
  links : List PaymentItemCategoryLink
  nextCategoryId : Nat
  nextRecipientId : Nat
  nextItemId : Nat
  deriving DecidableEq, Repr

/-- Field blamed by a row-level `import_csv` validation failure. -/
inductive RowField where
  | columns
  | amount
  | date
  | periodic
  | descriptionLen
  | recipientNameLen
  | recipientAddressLen
  | categoryNameLen
  | dateValue
  deriving DecidableEq, Repr

/-- Error outcome of an endpoint, one constructor per `HTTPException`
site of the embedded operations (404 `notFound`, 403 `forbidden`, the
two duplicate-detection 400s are the spec's `Conflict`, the remaining
400s are the spec's `Validation`; `noStandardType` is the import's 500;
`integrityError` is a commit-time NOT NULL violation surfaced by the
store). -/
inductive ApiError where
  | notFound
  | forbidden
  | conflictCategoryType
  | conflictCategoryName
  | emptyName
  | integrityError
  | filtersExclusive
  | emptyFile
  | badHeader
  | invalidRow (line : Nat) (field : RowField)
  | noDataRows
  | noStandardType
  deriving DecidableEq, Repr

/-! ## Store lookups -/

/-- `session.get(Category, cid)`: primary-key lookup. -/
def findCategory (db : DB) (cid : Nat) : Option Category :=
  db.categories.find? (fun c => c.id == cid)

/-- `session.get(CategoryType, tid)`: primary-key lookup. -/
def findCategoryType (db : DB) (tid : Nat) : Option CategoryType :=
  db.categoryTypes.find? (fun t => t.id == tid)

/-- `session.get(Recipient, rid)`: primary-key lookup. -/
def findRecipient (db : DB) (rid : Nat) : Option Recipient :=
  db.recipients.find? (fun r => r.id == rid)

/-- `session.get(PaymentItem, iid)`: primary-key lookup. -/
def findItem (db : DB) (iid : Nat) : Option PaymentItem :=
  db.items.find? (fun it => it.id == iid)

/-- `select(CategoryType).where(name == "standard", user_id == uid).first()`. -/
def standardType (db : DB) (uid : Nat) : Option CategoryType :=
  db.categoryTypes.find?
    (fun t => t.name == "standard".toList && t.user_id == some uid)

/-- `select(Category).where(name == "UNCLASSIFIED", user_id == uid).first()`. -/
def unclassifiedCategory (db : DB) (uid : Nat) : Option Category :=
  db.categories.find?
    (fun c => c.name == "UNCLASSIFIED".toList && c.user_id == some uid)

/-- Python truthiness of an optional integer field: `None` and `0` are
both falsy. -/
def truthy : Option Nat → Bool
  | none => false
  | some n => n != 0

/-! ## Category endpoints -/

/-- Payload of `POST /categories` (a `Category` without its
store-assigned primary key). -/
structure CategoryCreate where
  name : Str
  type_id : Nat
  parent_id : Option Nat
  icon_file : Option Str
  deriving DecidableEq, Repr

/-- Payload of `PUT /categories/:id` (`CategoryUpdate` in
`app/models.py`): the outer option is pydantic's set/unset distinction
under `exclude_unset`, the inner option an explicit null. -/
structure CategoryUpdatePayload where
  name : Option (Option Str) := none
  type_id : Option (Option Nat) := none
  parent_id : Option (Option Nat) := none
  icon_file : Option (Option Str) := none
  deriving DecidableEq, Repr

/-- Embedding of `create_category` (`app/main.py`): normalize, enforce
per-owner normalized-name uniqueness, then check mere existence of the
referenced parent (guarded by Python truthiness of `parent_id`) and of
the referenced type. -/
def createCategory (uid : Nat) (req : CategoryCreate) (db : DB) :
    Except ApiError (DB × Category) :=
  let normalized_name := normalizeL req.name
  if normalized_name.isEmpty then .error .emptyName
  else if (db.categories.filter (fun c => c.user_id == some uid)).any
      (fun c => normalizeL c.name == normalized_name) then
    .error .conflictCategoryName
  else if truthy req.parent_id && (findCategory db (req.parent_id.getD 0)).isNone then
    .error .notFound
  else if (findCategoryType db req.type_id).isNone then
    .error .notFound
  else
    let cat : Category :=
      { id := db.nextCategoryId, name := normalized_name,
        type_id := req.type_id, parent_id := req.parent_id,
        icon_file := req.icon_file, user_id := some uid }
    .ok
      ({ db with
          categories := db.categories ++ [cat],
          nextCategoryId := db.nextCategoryId + 1 },
       cat)

/-- Embedding of `update_category` (`app/main.py`).  A payload that sets
`name` or `type_id` to an explicit null skips the validation branches
(they test `is not None`) and then fails at commit time on the NOT NULL
column, which the session surfaces as an error with no write. -/
def updateCategory (uid : Nat) (category_id : Nat) (req : CategoryUpdatePayload)
    (db : DB) : Except ApiError (DB × Category) :=
  match findCategory db category_id with
  | none => .error .notFound
  | some category =>
    if category.user_id ≠ some uid then .error .forbidden
    else
      let nameRes : Except ApiError (Option (Option Str)) :=
        match req.name with
        | some (some raw) =>
          let normalized_name := normalizeL raw
          if normalized_name.isEmpty then .error .emptyName
          else if (db.categories.filter
              (fun c => c.id != category_id && c.user_id == some uid)).any
              (fun c => normalizeL c.name == normalized_name) then
            .error .conflictCategoryName
          else .ok (some (some normalized_name))
        | other => .ok other
      match nameRes with
      | .error e => .error e
      | .ok nameVal =>
        if (match req.parent_id with
            | some (some pid) => (findCategory db pid).isNone
            | _ => false) then .error .notFound
        else if (match req.type_id with
            | some (some tid) => (findCategoryType db tid).isNone
            | _ => false) then .error .notFound
        else
          match nameVal, req.type_id with
          | some none, _ => .error .integrityError
          | _, some none => .error .integrityError
          | _, _ =>
            let updated : Category :=
              { id := category.id,
                name := (match nameVal with
                  | some (some nn) => nn
                  | _ => category.name),
                type_id := (match req.type_id with
                  | some (some t) => t
                  | _ => category.type_id),
                parent_id := (match req.parent_id with
                  | some p => p
                  | none => category.parent_id),
                icon_file := (match req.icon_file with
                  | some i => i
                  | none => category.icon_file),
                user_id := category.user_id }
            .ok
              ({ db with
                  categories := db.categories.map
                    (fun c => if c.id == category_id then updated else c) },
               updated)

/-! ## Payment item endpoints -/

/-- Payload of `POST /payment-items` (`PaymentItemCreate`): the
`standard_category_id` field is accepted by the schema but overwritten by
the endpoint; `user_id` is always taken from the token.  An absent
`category_ids` field and an empty list are indistinguishable to the
endpoint (both are falsy), so the payload carries a plain list. -/
structure PaymentItemCreate where
  amount : Rat
  date : DateV
  periodic : Bool
  description : Option Str
  recipient_id : Option Nat
  standard_category_id : Option Nat
  category_ids : List Nat
  deriving DecidableEq, Repr

/-- Payload of `PUT /payment-items/:id` (`PaymentItemUpdate`) under
`exclude_unset`: the outer option is set/unset, the inner an explicit
null where the column is nullable.  For the NOT NULL columns `amount`,
`date` and `periodic` an explicit null would die on commit; such payloads
are outside the modelled request space.  `category_ids` is tested with
`is not None` on the attribute, which conflates unset and null. -/
structure PaymentItemUpdatePayload where
  amount : Option Rat := none
  date : Option DateV := none
  periodic : Option Bool := none
  description : Option (Option Str) := none
  recipient_id : Option (Option Nat) := none
  standard_category_id : Option (Option Nat) := none
  category_ids : Option (List Nat) := none
  deriving DecidableEq, Repr

/-- The `for cat_id in category_ids` validation loop shared by
`create_payment_item` and `update_payment_item`: resolve each id, check
ownership, reject a repeated `type_id` (`seen_types`), and remember the
last id whose type is the (truthy) standard type id. -/
def validateCats (db : DB) (uid : Nat) (stdTid : Option Nat) :
    List Nat → List Nat → List Nat → Option Nat →
    Except ApiError (List Nat × Option Nat)
  | [], _seen, acc, std => .ok (acc, std)
  | cat_id :: rest, seen, acc, std =>
    match findCategory db cat_id with
    | none => .error .notFound
    | some category =>
      if category.user_id ≠ some uid then .error .forbidden
      else if category.type_id ∈ seen then .error .conflictCategoryType
      else
        validateCats db uid stdTid rest (seen ++ [category.type_id])
          (acc ++ [cat_id])
          (if truthy stdTid && stdTid == some category.type_id
           then some cat_id else std)

/-- The `else` branch shared by both endpoints when the requested list is
falsy: fall back to the owner's UNCLASSIFIED tag when it exists. -/
def defaultCats (db : DB) (uid : Nat) (stdTid : Option Nat) :
    List Nat × Option Nat :=
  match unclassifiedCategory db uid with
  | some default_cat =>
    ([default_cat.id],
     if truthy stdTid && stdTid == some default_cat.type_id
     then some default_cat.id else none)
  | none => ([], none)

/-- Embedding of `create_payment_item` (`app/main.py`). -/
def createPaymentItem (uid : Nat) (req : PaymentItemCreate) (db : DB) :
    Except ApiError (DB × PaymentItem) :=
  if truthy req.recipient_id ∧ (findRecipient db (req.recipient_id.getD 0)).isNone then
    .error .notFound
  else if truthy req.recipient_id ∧
      ((findRecipient db (req.recipient_id.getD 0)).map (fun r => r.user_id) ≠
        some (some uid)) then
    .error .forbidden
  else
    let standard_type_id := (standardType db uid).map (fun t => t.id)
    let valRes : Except ApiError (List Nat × Option Nat) :=
      if req.category_ids ≠ [] then
        validateCats db uid standard_type_id req.category_ids [] [] none
      else .ok (defaultCats db uid standard_type_id)
    match valRes with
    | .error e => .error e
    | .ok (category_ids, standard_category_id) =>
      let db_item : PaymentItem :=
        { id := db.nextItemId, amount := req.amount, date := req.date,
          periodic := req.periodic, description := req.description,
          recipient_id := req.recipient_id,
          standard_category_id := standard_category_id,
          user_id := some uid }
      .ok
        ({ db with
            items := db.items ++ [db_item],
            links := db.links ++ category_ids.map
              (fun cid => PaymentItemCategoryLink.mk db.nextItemId cid),
            nextItemId := db.nextItemId + 1 },
         db_item)

/-- Embedding of `update_payment_item` (`app/main.py`).  Step 1 copies
every set field except `category_ids`/`user_id` onto the row — including
`standard_category_id`; step 3 recomputes links and shortcut only when
`category_ids` is present. -/
def updatePaymentItem (uid : Nat) (item_id : Nat)
    (req : PaymentItemUpdatePayload) (db : DB) :
    Except ApiError (DB × PaymentItem) :=
  match findItem db item_id with
  | none => .error .notFound
  | some db_item0 =>
    if db_item0.user_id ≠ some uid then .error .forbidden
    else
      let db_item1 : PaymentItem :=
        { id := db_item0.id,
          amount := req.amount.getD db_item0.amount,
          date := req.date.getD db_item0.date,
          periodic := req.periodic.getD db_item0.periodic,
          description := (match req.description with
            | some d => d
            | none => db_item0.description),
          recipient_id := (match req.recipient_id with
            | some r => r
            | none => db_item0.recipient_id),
          standard_category_id := (match req.standard_category_id with
            | some s => s
            | none => db_item0.standard_category_id),
          user_id := db_item0.user_id }
      let recReq : Option Nat := match req.recipient_id with
        | some r => r
        | none => none
      if truthy recReq ∧ (findRecipient db (recReq.getD 0)).isNone then
        .error .notFound
      else if truthy recReq ∧
          ((findRecipient db (recReq.getD 0)).map (fun r => r.user_id) ≠
            some (some uid)) then
        .error .forbidden
      else
        match req.category_ids with
        | none =>
          .ok
            ({ db with
                items := db.items.map
                  (fun it => if it.id == item_id then db_item1 else it) },
             db_item1)
        | some cids =>
          let standard_type_id := (standardType db uid).map (fun t => t.id)
          let valRes : Except ApiError (List Nat × Option Nat) :=
            if cids ≠ [] then
              validateCats db uid standard_type_id cids [] [] none
            else .ok (defaultCats db uid standard_type_id)
          match valRes with
          | .error e => .error e
          | .ok (category_ids, standard_category_id) =>
            let db_item2 : PaymentItem :=
              { db_item1 with standard_category_id := standard_category_id }
            .ok
              ({ db with
                  items := db.items.map
                    (fun it => if it.id == item_id then db_item2 else it),
                  links := db.links.filter
                      (fun L => L.payment_item_id != item_id) ++
                    category_ids.map
                      (fun cid => PaymentItemCategoryLink.mk item_id cid) },
               db_item2)

/-! ## Descendant expansion and transaction listing -/

/-- The child query of `gather_descendants`:
`select(Category.id).where(Category.parent_id == current)` — note it is
not owner-scoped. -/
def childIds (cats : List Category) (current : Nat) : List Nat :=
  (cats.filter (fun c => c.parent_id == some current)).map (fun c => c.id)

/-- The `for child_id in children` loop body: ids not yet in the visited
set are appended to it and to the work queue. -/
def enqueueChildren (children : List Nat) (p : List Nat × List Nat) :
    List Nat × List Nat :=
  children.foldl
    (fun q child_id =>
      if child_id ∈ q.1 then q else (q.1 ++ [child_id], q.2 ++ [child_id]))
    p

/-- Termination measure of the BFS: unvisited known category ids plus
queue length. -/
def bfsMeasure (cats : List Category) (e q : List Nat) : Nat :=
  ((cats.map (fun c => c.id)).dedup.filter (fun i => i ∉ e)).length + q.length

theorem length_filter_ne_succ_le {l : List Nat} {a : Nat} (h : a ∈ l) :
    (l.filter (fun x => x ≠ a)).length + 1 ≤ l.length := by
  induction l with
  | nil => cases h
  | cons b bs ih =>
    by_cases hb : b = a
    · subst hb
      simp only [List.filter_cons, decide_not]
      simp only [decide_True, Bool.not_true, Bool.false_eq_true, if_false]
      exact Nat.succ_le_succ (List.length_filter_le _ _)
    · have hmem : a ∈ bs := by
        rcases List.mem_cons.mp h with h1 | h1
        · exact absurd h1.symm hb
        · exact h1
      simp only [List.filter_cons]
      have hkeep : (decide ¬b = a) = true := by simp [hb]
      rw [hkeep]
      simp only [if_true, List.length_cons]
      have := ih hmem
      omega

theorem measure_decrease (S : List Nat) (e : List Nat) (ch : Nat)
    (hS : ch ∈ S) (hne : ch ∉ e) :
    (S.filter (fun i => i ∉ e ++ [ch])).length + 1 ≤
      (S.filter (fun i => i ∉ e)).length := by
  have heq : S.filter (fun i => i ∉ e ++ [ch]) =
      (S.filter (fun i => i ∉ e)).filter (fun i => i ≠ ch) := by
    rw [List.filter_filter]
    apply List.filter_congr
    intro x _
    simp only [List.mem_append, List.mem_singleton, decide_not, Bool.not_eq_eq_eq_not,
      Bool.not_not]
    by_cases h1 : x ∈ e <;> by_cases h2 : x = ch <;> simp [h1, h2]
  rw [heq]
  apply length_filter_ne_succ_le
  rw [List.mem_filter]
  exact ⟨hS, by simpa using hne⟩

theorem enqueueChildren_measure (cats : List Category) (children : List Nat)
    (hc : ∀ c ∈ children, c ∈ (cats.map (fun c => c.id)).dedup) :
    ∀ e q, bfsMeasure cats (enqueueChildren children (e, q)).1
        (enqueueChildren children (e, q)).2 ≤ bfsMeasure cats e q := by
  induction children with
  | nil => intro e q; exact le_refl _
  | cons ch rest ih =>
    intro e q
    have hrest : ∀ c ∈ rest, c ∈ (cats.map (fun c => c.id)).dedup :=
      fun c hcm => hc c (List.mem_cons_of_mem _ hcm)
    by_cases hch : ch ∈ e
    · have : enqueueChildren (ch :: rest) (e, q) = enqueueChildren rest (e, q) := by
        simp [enqueueChildren, List.foldl_cons, hch]
      rw [this]
      exact ih hrest e q
    · have : enqueueChildren (ch :: rest) (e, q) =
          enqueueChildren rest (e ++ [ch], q ++ [ch]) := by
        simp [enqueueChildren, List.foldl_cons, hch]
      rw [this]
      have h1 := ih hrest (e ++ [ch]) (q ++ [ch])
      have h2 : bfsMeasure cats (e ++ [ch]) (q ++ [ch]) ≤ bfsMeasure cats e q := by
        have := measure_decrease ((cats.map (fun c => c.id)).dedup) e ch
          (hc ch (List.mem_cons_self _ _)) hch
        simp only [bfsMeasure, List.length_append, List.length_singleton]
        omega
      exact le_trans h1 h2

theorem childIds_subset (cats : List Category) (current : Nat) :
    ∀ c ∈ childIds cats current, c ∈ (cats.map (fun c => c.id)).dedup := by
  intro c hc
  rw [List.mem_dedup]
  rw [childIds] at hc
  obtain ⟨cat, hcat, rfl⟩ := List.mem_map.mp hc
  exact List.mem_map.mpr ⟨cat, (List.mem_filter.mp hcat).1, rfl⟩

/-- Embedding of the BFS of `gather_descendants` inside
`list_payment_items`: shared visited set `expanded`, work queue `queue`. -/
def bfs (cats : List Category) (expanded : List Nat) (queue : List Nat) :
    List Nat :=
  match queue with
  | [] => expanded
  | current :: rest =>
    bfs cats (enqueueChildren (childIds cats current) (expanded, rest)).1
      (enqueueChildren (childIds cats current) (expanded, rest)).2
termination_by bfsMeasure cats expanded queue
decreasing_by
  have h := enqueueChildren_measure cats (childIds cats current)
    (childIds_subset cats current) expanded rest
  have : bfsMeasure cats expanded (current :: rest) =
      bfsMeasure cats expanded rest + 1 := by
    simp only [bfsMeasure, List.length_cons]
    omega
  omega

/-- Descendant expansion of `list_payment_items`: the visited set is
seeded with the raw filter ids (`set(category_ids)`, modelled up to
duplicate removal) and one BFS is launched from each filter id. -/
def gatherAll (cats : List Category) (category_ids : List Nat) : List Nat :=
  category_ids.foldl (fun expanded root => bfs cats expanded [root])
    category_ids.dedup

/-- Embedding of `list_payment_items` (`app/main.py`). -/
def listPaymentItems (uid : Nat) (expense_only income_only : Bool)
    (category_ids : Option (List Nat)) (db : DB) :
    Except ApiError (List PaymentItem) :=
  if expense_only && income_only then .error .filtersExclusive
  else
    let base0 := db.items.filter (fun it => it.user_id == some uid)
    let base1 := if expense_only then base0.filter (fun it => it.amount < 0) else base0
    let base2 := if income_only then base1.filter (fun it => it.amount > 0) else base1
    match category_ids with
    | some (c :: cs) =>
      let expanded := gatherAll db.categories (c :: cs)
      let matching := (db.links.filter
        (fun L => L.category_id ∈ expanded)).map (fun L => L.payment_item_id)
      .ok (base2.filter (fun it => it.id ∈ matching))
    | _ => .ok base2

/-! ## CSV import (`import_csv`) -/

/-- Length-limit constants (`app/constants.py`). -/
def MAX_DESCRIPTION_LENGTH : Nat := 1000

/-- Maximum recipient name length (`app/constants.py`). -/
def MAX_RECIPIENT_NAME_LENGTH : Nat := 255

/-- Maximum recipient address length (`app/constants.py`). -/
def MAX_RECIPIENT_ADDRESS_LENGTH : Nat := 500

/-- Maximum category name length (`app/constants.py`). -/
def MAX_CATEGORY_NAME_LENGTH : Nat := 255

/-- The expected header cells (`CSV_HEADER_FIELDS` in `app/main.py`). -/
def CSV_HEADER_FIELDS : List Str :=
  ["amount".toList, "date".toList, "description".toList,
   "Recipient name".toList, "Recipient address".toList,
   "standard_category name".toList, "periodic".toList]

/-- The expected header line (`CSV_HEADER = ";".join(CSV_HEADER_FIELDS)`). -/
def CSV_HEADER : Str := List.intercalate ";".toList CSV_HEADER_FIELDS

/-- A digit-only, nonempty string (one `\d+` group, ASCII reading). -/
def isDigits (l : Str) : Bool := !l.isEmpty && l.all Char.isDigit

/-- The regex `^-?\d+(?:\.\d+)?$` (`AMOUNT_PATTERN`). -/
def amountPattern (l : Str) : Bool :=
  let body := match l with
    | '-' :: rest => rest
    | _ => l
  match body.splitOn '.' with
  | [a] => isDigits a
  | [a, b] => isDigits a && isDigits b
  | _ => false

/-- The regex `^\d{4}-\d{2}-\d{2}$` (`DATE_PATTERN`). -/
def datePattern (l : Str) : Bool :=
  match l with
  | [y1, y2, y3, y4, s1, m1, m2, s2, d1, d2] =>
    y1.isDigit && y2.isDigit && y3.isDigit && y4.isDigit && s1 == '-' &&
      m1.isDigit && m2.isDigit && s2 == '-' && d1.isDigit && d2.isDigit
  | _ => false

/-- The regex `^(true|false)$` with `re.IGNORECASE` (`BOOLEAN_PATTERN`). -/
def booleanPattern (l : Str) : Bool :=
  let t := l.map Char.toLower
  t == "true".toList || t == "false".toList

/-- Decimal digit string to number. -/
def digitsToNat (l : Str) : Nat :=
  l.foldl (fun acc c => acc * 10 + (c.toNat - '0'.toNat)) 0

/-- Gregorian leap-year rule, as used by `datetime`. -/
def isLeapYear (y : Nat) : Bool :=
  (y % 4 == 0 && y % 100 != 0) || y % 400 == 0

/-- Days of each month, as validated by `datetime`. -/
def daysInMonth (y m : Nat) : Nat :=
  if m == 2 then (if isLeapYear y then 29 else 28)
  else if m == 4 || m == 6 || m == 9 || m == 11 then 30
  else 31

/-- `datetime.strptime(s, "%Y-%m-%d")` succeeds iff the components form a
calendar-valid date with year at least 1. -/
def strptimeOk (y m d : Nat) : Bool :=
  decide (1 ≤ y) && decide (1 ≤ m) && decide (m ≤ 12) && decide (1 ≤ d) &&
    decide (d ≤ daysInMonth y m)

/-- Exact value of a matched amount string (the code converts through
`float`; the claims never depend on float rounding). -/
def parseAmount (l : Str) : Rat :=
  let sign : Rat := match l with
    | '-' :: _ => -1
    | _ => 1
  let body := match l with
    | '-' :: rest => rest
    | _ => l
  match body.splitOn '.' with
  | [a] => sign * (digitsToNat a : Rat)
  | [a, b] =>
    sign * ((digitsToNat a : Rat) + (digitsToNat b : Rat) / ((10 : Rat) ^ b.length))
  | _ => 0

/-- The `replace("\r\n", "\n").replace("\r", "\n")` canonicalization. -/
def canonNewlines : Str → Str
  | [] => []
  | '\r' :: '\n' :: rest => '\n' :: canonNewlines rest
  | '\r' :: rest => '\n' :: canonNewlines rest
  | c :: rest => c :: canonNewlines rest

/-- One validated data row of the import. -/
structure ParsedRow where
  amount : Rat
  date : DateV
  description : Option Str
  recipient_name : Str
  recipient_address : Option Str
  category_name : Str
  periodic : Bool
  normalized_recipient : Str
  normalized_category : Str
  deriving DecidableEq, Repr

/-- `if not row or not any(cell.strip() for cell in row)`. -/
def blankRow (row : List Str) : Bool :=
  row.isEmpty || !(row.any (fun cell => !(pyStrip cell).isEmpty))

/-- The validated record built from one good data row. -/
def mkParsedRow (row : List Str) : ParsedRow :=
  let date_str := pyStrip (row.getD 1 [])
  let description := pyStrip (canonNewlines (row.getD 2 []))
  let recipient_name := pyStrip (row.getD 3 [])
  let recipient_address := pyStrip (canonNewlines (row.getD 4 []))
  let category_name := pyStrip (row.getD 5 [])
  { amount := parseAmount (pyStrip (row.getD 0 [])),
    date := DateV.mk (digitsToNat (date_str.take 4))
      (digitsToNat ((date_str.drop 5).take 2))
      (digitsToNat (date_str.drop 8)),
    description := if description.isEmpty then none else some description,
    recipient_name := recipient_name,
    recipient_address :=
      if recipient_address.isEmpty then none else some recipient_address,
    category_name := category_name,
    periodic := (pyStrip (row.getD 6 [])).map Char.toLower == "true".toList,
    normalized_recipient :=
      if recipient_name.isEmpty then [] else normalizeL recipient_name,
    normalized_category :=
      if category_name.isEmpty then [] else normalizeL category_name }

/-- Parse-and-validate phase of `import_csv` over the data rows
(`enumerate(reader, start=2)`): blank rows are skipped, the first invalid
row aborts with its line number, valid rows are accumulated.  This phase
issues no mutation. -/
def parseDataRows : Nat → List (List Str) → Except ApiError (List ParsedRow)
  | _, [] => .ok []
  | row_index, row :: rest =>
    if blankRow row then parseDataRows (row_index + 1) rest
    else if row.length ≠ CSV_HEADER_FIELDS.length then
      .error (.invalidRow row_index .columns)
    else
      let amount_str := pyStrip (row.getD 0 [])
      let date_str := pyStrip (row.getD 1 [])
      let description := pyStrip (canonNewlines (row.getD 2 []))
      let recipient_name := pyStrip (row.getD 3 [])
      let recipient_address := pyStrip (canonNewlines (row.getD 4 []))
      let category_name := pyStrip (row.getD 5 [])
      let periodic_str := (pyStrip (row.getD 6 [])).map Char.toLower
      if amountPattern amount_str = false then
        .error (.invalidRow row_index .amount)
      else if datePattern date_str = false then
        .error (.invalidRow row_index .date)
      else if booleanPattern periodic_str = false then
        .error (.invalidRow row_index .periodic)
      else if description.isEmpty = false ∧
          MAX_DESCRIPTION_LENGTH < description.length then
        .error (.invalidRow row_index .descriptionLen)
      else if recipient_name.isEmpty = false ∧
          MAX_RECIPIENT_NAME_LENGTH < recipient_name.length then
        .error (.invalidRow row_index .recipientNameLen)
      else if recipient_address.isEmpty = false ∧
          MAX_RECIPIENT_ADDRESS_LENGTH < recipient_address.length then
        .error (.invalidRow row_index .recipientAddressLen)
      else if category_name.isEmpty = false ∧
          MAX_CATEGORY_NAME_LENGTH < category_name.length then
        .error (.invalidRow row_index .categoryNameLen)
      else
        let y := digitsToNat (date_str.take 4)
        let m := digitsToNat ((date_str.drop 5).take 2)
        let d := digitsToNat (date_str.drop 8)
        if strptimeOk y m d = false then
          .error (.invalidRow row_index .dateValue)
        else
          match parseDataRows (row_index + 1) rest with
          | .error e => .error e
          | .ok prs => .ok (mkParsedRow row :: prs)

/-- `recipient_import_data`: an insertion-ordered dict keyed by normalized
recipient name, last occurrence of the address wins. -/
def recipImportData (rows : List ParsedRow) : List (Str × Option Str) :=
  rows.foldl
    (fun acc row =>
      if row.normalized_recipient.isEmpty then acc
      else if acc.any (fun p => p.1 == row.normalized_recipient) then
        acc.map (fun p =>
          if p.1 == row.normalized_recipient then (p.1, row.recipient_address) else p)
      else acc ++ [(row.normalized_recipient, row.recipient_address)])
    []

/-- `category_names`: the set of nonempty normalized category names, in
first-occurrence order. -/
def categoryNamesOf (rows : List ParsedRow) : List Str :=
  rows.foldl
    (fun acc row =>
      if row.normalized_category.isEmpty then acc
      else if row.normalized_category ∈ acc then acc
      else acc ++ [row.normalized_category])
    []

/-- `recipient_lookup.get(name)`: the dict comprehension keeps the last
row per normalized name. -/
def recipientLookup (db : DB) (uid : Nat) (name : Str) : Option Recipient :=
  ((db.recipients.filter (fun r => r.user_id == some uid)).reverse).find?
    (fun r => normalizeL r.name == name)

/-- `category_lookup.get(name)`: same shape for categories. -/
def categoryLookup (db : DB) (uid : Nat) (name : Str) : Option Category :=
  ((db.categories.filter (fun c => c.user_id == some uid)).reverse).find?
    (fun c => normalizeL c.name == name)

/-- Python `x or None` on an optional string: an empty string is falsy
and collapses to `None`. -/
def orNoneStr : Option Str → Option Str
  | some [] => none
  | x => x

/-- State of the recipient reconciliation loop. -/
structure RecipPhase where
  recipients : List Recipient
  nextId : Nat
  created : Nat
  updated : Nat
  ids : List (Str × Nat)
  deriving DecidableEq, Repr

/-- One iteration of `for name, data in recipient_import_data.items()`:
the lookup is the pre-import snapshot. -/
def recipStep (lookup : Str → Option Recipient) (uid : Nat)
    (st : RecipPhase) (entry : Str × Option Str) : RecipPhase :=
  match lookup entry.1 with
  | some existing =>
    if orNoneStr existing.address ≠ entry.2 then
      { st with
        recipients := st.recipients.map
          (fun r => if r.id == existing.id then { r with address := entry.2 } else r),
        updated := st.updated + 1,
        ids := st.ids ++ [(entry.1, existing.id)] }
    else { st with ids := st.ids ++ [(entry.1, existing.id)] }
  | none =>
    { st with
      recipients := st.recipients ++ [Recipient.mk st.nextId entry.1 entry.2 (some uid)],
      nextId := st.nextId + 1,
      created := st.created + 1,
      ids := st.ids ++ [(entry.1, st.nextId)] }

/-- State of the category reconciliation loop. -/
structure CatPhase where
  categories : List Category
  nextId : Nat
  created : Nat
  ids : List (Str × Nat)
  deriving DecidableEq, Repr

/-- One iteration of `for name in category_names`: missing names are
created in the owner's standard dimension, as root tags. -/
def catStep (lookup : Str → Option Category) (uid std_tid : Nat)
    (st : CatPhase) (name : Str) : CatPhase :=
  match lookup name with
  | some existing_category => { st with ids := st.ids ++ [(name, existing_category.id)] }
  | none =>
    { st with
      categories := st.categories ++
        [Category.mk st.nextId name std_tid none none (some uid)],
      nextId := st.nextId + 1,
      created := st.created + 1,
      ids := st.ids ++ [(name, st.nextId)] }

/-- Dict read over the accumulated id maps (last write wins). -/
def assocGet (l : List (Str × Nat)) (k : Str) : Option Nat :=
  (l.reverse.find? (fun p => p.1 == k)).map (fun p => p.2)

/-- State of the payment materialization loop. -/
structure PayPhase where
  items : List PaymentItem
  links : List PaymentItemCategoryLink
  nextId : Nat
  created : Nat
  deriving DecidableEq, Repr

/-- One iteration of the final `for row in parsed_rows` loop: create the
transaction, then link it to its single category when the resolved id is
truthy. -/
def payStep (uid : Nat) (default_category : Option Category)
    (rids cids : List (Str × Nat)) (st : PayPhase) (row : ParsedRow) : PayPhase :=
  let recipient_id := if row.normalized_recipient.isEmpty then none
    else assocGet rids row.normalized_recipient
  let category_id := if row.normalized_category.isEmpty = false then
      assocGet cids row.normalized_category
    else default_category.map (fun c => c.id)
  { items := st.items ++
      [{ id := st.nextId, amount := row.amount, date := row.date,
         periodic := row.periodic, description := row.description,
         recipient_id := recipient_id, standard_category_id := category_id,
         user_id := some uid }],
    links := st.links ++
      (if truthy category_id
       then [PaymentItemCategoryLink.mk st.nextId (category_id.getD 0)]
       else []),
    nextId := st.nextId + 1,
    created := st.created + 1 }

/-- Report returned by a successful import. -/
structure ImportReport where
  created_payments : Nat
  created_recipients : Nat
  updated_recipients : Nat
  created_categories : Nat
  deriving DecidableEq, Repr

/-- Embedding of `import_csv` (`app/main.py`) from the record stream of
`csv.reader` onward (the csv module, filename and UTF-8 checks are
external collaborators): each element of `rows` is the list of cell
strings of one line, the first being the header line.  All validation
precedes every mutation; a single commit publishes the whole batch. -/
def importCsv (uid : Nat) (rows : List (List Str)) (db : DB) :
    Except ApiError (DB × ImportReport) :=
  match rows with
  | [] => .error .emptyFile
  | header_row :: data_rows =>
    if List.intercalate ";".toList (header_row.map pyStrip) ≠ CSV_HEADER then
      .error .badHeader
    else
      match parseDataRows 2 data_rows with
      | .error e => .error e
      | .ok parsed_rows =>
        if parsed_rows.isEmpty then .error .noDataRows
        else
          match standardType db uid with
          | none => .error .noStandardType
          | some standard_type =>
            let default_category := unclassifiedCategory db uid
            let rphase := (recipImportData parsed_rows).foldl
              (recipStep (recipientLookup db uid) uid)
              (RecipPhase.mk db.recipients db.nextRecipientId 0 0 [])
            let cphase := (categoryNamesOf parsed_rows).foldl
              (catStep (categoryLookup db uid) uid standard_type.id)
              (CatPhase.mk db.categories db.nextCategoryId 0 [])
            let pphase := parsed_rows.foldl
              (payStep uid default_category rphase.ids cphase.ids)
              (PayPhase.mk db.items db.links db.nextItemId 0)
            .ok
              ({ db with
                  recipients := rphase.recipients,
                  categories := cphase.categories,
                  items := pphase.items,
                  links := pphase.links,
                  nextRecipientId := rphase.nextId,
                  nextCategoryId := cphase.nextId,
                  nextItemId := pphase.nextId },
               ImportReport.mk pphase.created rphase.created rphase.updated
                 cphase.created)

/-! ## Store well-formedness -/

/-- Store well-formedness: primary keys are below the autoincrement
counters, pairwise distinct and nonzero (SQLite rowids start at 1), and
links reference existing payment items (foreign-key integrity is assumed
of the store). -/
structure WfDB (db : DB) : Prop where
  typeIdsPos : ∀ t ∈ db.categoryTypes, 0 < t.id
  catIdsPos : ∀ c ∈ db.categories, 0 < c.id
  catIdsLt : ∀ c ∈ db.categories, c.id < db.nextCategoryId
  itemIdsLt : ∀ it ∈ db.items, it.id < db.nextItemId
  recipIdsLt : ∀ r ∈ db.recipients, r.id < db.nextRecipientId
  catNodup : (db.categories.map (fun c => c.id)).Nodup
  itemNodup : (db.items.map (fun it => it.id)).Nodup
  linkItems : ∀ L ∈ db.links, ∃ it ∈ db.items, it.id = L.payment_item_id

/-! ## C9 and C10: listing filters -/

/-- Membership characterization of a successful `list_payment_items`
call: returned items are exactly the owner's items that pass the strict
amount filters and, when a nonempty category filter is supplied, have a
link into the descendant-expanded filter set. -/
theorem listPaymentItems_mem (uid : Nat) (eo io : Bool)
    (cids : Option (List Nat)) (db : DB) (l : List PaymentItem)
    (h : listPaymentItems uid eo io cids db = .ok l) :
    ∀ it, it ∈ l ↔ (it ∈ db.items ∧ it.user_id = some uid ∧
      (eo = true → it.amount < 0) ∧ (io = true → 0 < it.amount) ∧
      (∀ c cs, cids = some (c :: cs) →
        ∃ L ∈ db.links, L.payment_item_id = it.id ∧
          L.category_id ∈ gatherAll db.categories (c :: cs))) := by
  intro it
  by_cases hb : (eo && io) = true
  · rw [listPaymentItems, if_pos hb] at h
    cases h
  · rw [listPaymentItems, if_neg hb] at h
    by_cases heo : eo = true <;> by_cases hio : io = true
    · exact absurd (by simp [heo, hio]) hb
    all_goals (
      simp only [heo, hio, if_true, if_false, Bool.false_eq_true] at h ⊢
      rcases cids with - | (- | ⟨c, cs⟩) <;>
        (injection h with h; subst h;
         simp [List.mem_filter, List.mem_map]) <;>
      aesop)

/-- C9: for every payment item whose amount is exactly zero, listing with
expense_only excludes it and listing with income_only excludes it (the
filters use the strict comparisons `amount < 0` and `amount > 0`), while
the unfiltered listing returns it. -/
theorem zero_amount_only_unfiltered (db : DB) (uid : Nat) (it : PaymentItem)
    (hmem : it ∈ db.items) (hz : it.amount = 0) (hu : it.user_id = some uid) :
    (∀ l, listPaymentItems uid true false none db = .ok l → it ∉ l) ∧
    (∀ l, listPaymentItems uid false true none db = .ok l → it ∉ l) ∧
    (∃ l, listPaymentItems uid false false none db = .ok l ∧ it ∈ l) := by
  refine ⟨?_, ?_, ?_⟩
  · intro l hl hit
    have hc := (listPaymentItems_mem uid true false none db l hl it).mp hit
    have hlt := hc.2.2.1 rfl
    rw [hz] at hlt
    exact absurd hlt (by norm_num)
  · intro l hl hit
    have hc := (listPaymentItems_mem uid false true none db l hl it).mp hit
    have hlt := hc.2.2.2.1 rfl
    rw [hz] at hlt
    exact absurd hlt (by norm_num)
  · refine ⟨db.items.filter (fun x => x.user_id == some uid), rfl, ?_⟩
    rw [List.mem_filter]
    exact ⟨hmem, by simp [hu]⟩

/-- C9 witness: concrete one-item store with a zero amount. -/
theorem zero_amount_only_unfiltered_witness :
    (∀ l, listPaymentItems 1 true false none
        (DB.mk [] [] [] [PaymentItem.mk 1 0 (DateV.mk 2024 1 1) false none none none (some 1)] [] 1 1 2)
        = .ok l →
      PaymentItem.mk 1 0 (DateV.mk 2024 1 1) false none none none (some 1) ∉ l) ∧
    (∀ l, listPaymentItems 1 false true none
        (DB.mk [] [] [] [PaymentItem.mk 1 0 (DateV.mk 2024 1 1) false none none none (some 1)] [] 1 1 2)
        = .ok l →
      PaymentItem.mk 1 0 (DateV.mk 2024 1 1) false none none none (some 1) ∉ l) ∧
    (∃ l, listPaymentItems 1 false false none
        (DB.mk [] [] [] [PaymentItem.mk 1 0 (DateV.mk 2024 1 1) false none none none (some 1)] [] 1 1 2)
        = .ok l ∧
      PaymentItem.mk 1 0 (DateV.mk 2024 1 1) false none none none (some 1) ∈ l) :=
  zero_amount_only_unfiltered _ 1 _ (by decide) (by decide) (by decide)

/-- C10: every payment item returned by the listing operation belongs to
the calling owner, for every combination of filters, even though the
descendant expansion step fetches child categories without an owner
restriction. -/
theorem listPaymentItems_owner (uid : Nat) (eo io : Bool)
    (cids : Option (List Nat)) (db : DB) (l : List PaymentItem)
    (h : listPaymentItems uid eo io cids db = .ok l) :
    ∀ it ∈ l, it.user_id = some uid := by
  intro it hit
  exact ((listPaymentItems_mem uid eo io cids db l h it).mp hit).2.1

/-- C10 witness: a store holding two owners' items and a cross-owner
category tree; the listing filtered by the shared parent tag returns only
the caller's item. -/
theorem listPaymentItems_owner_witness :
    (PaymentItem.mk 1 5 (DateV.mk 2024 1 1) false none none (some 3)
      (some 1)).user_id = some 1 :=
  listPaymentItems_owner 1 false false (some [3])
    (DB.mk [CategoryType.mk 7 "standard".toList none (some 1)]
      [Category.mk 3 "Food".toList 7 none none (some 1),
       Category.mk 4 "Sub".toList 7 (some 3) none (some 2)]
      []
      [PaymentItem.mk 1 5 (DateV.mk 2024 1 1) false none none (some 3) (some 1),
       PaymentItem.mk 2 5 (DateV.mk 2024 1 1) false none none (some 4) (some 2)]
      [PaymentItemCategoryLink.mk 1 3, PaymentItemCategoryLink.mk 2 4]
      5 1 3)
    [PaymentItem.mk 1 5 (DateV.mk 2024 1 1) false none none (some 3) (some 1)]
    (by
      simp [listPaymentItems, gatherAll, bfs, enqueueChildren, childIds,
        List.dedup, List.filter, List.foldl])
    (PaymentItem.mk 1 5 (DateV.mk 2024 1 1) false none none (some 3) (some 1))
    (List.mem_cons_self _ _)

/-! ## C5 and C6: descendant closure -/

/-- One child step of the tag tree: `b` is the id of a stored tag node
whose `parent_id` is `a`. -/
def ChildRel (cats : List Category) (a b : Nat) : Prop :=
  ∃ c ∈ cats, c.id = b ∧ c.parent_id = some a

theorem childIds_mem_iff {cats : List Category} {cur z : Nat} :
    z ∈ childIds cats cur ↔ ChildRel cats cur z := by
  simp only [childIds, ChildRel, List.mem_map, List.mem_filter, beq_iff_eq]
  constructor
  · rintro ⟨c, ⟨hc, hp⟩, rfl⟩
    exact ⟨c, hc, rfl, hp⟩
  · rintro ⟨c, hc, rfl, hp⟩
    exact ⟨c, ⟨hc, hp⟩, rfl⟩

theorem enqueueChildren_nil (e q : List Nat) :
    enqueueChildren [] (e, q) = (e, q) := rfl

theorem enqueueChildren_cons (ch : Nat) (rest : List Nat) (e q : List Nat) :
    enqueueChildren (ch :: rest) (e, q) =
      if ch ∈ e then enqueueChildren rest (e, q)
      else enqueueChildren rest (e ++ [ch], q ++ [ch]) := by
  by_cases hch : ch ∈ e <;> simp [enqueueChildren, List.foldl_cons, hch]

theorem enqueue_mem_left (children : List Nat) :
    ∀ e q x, x ∈ e → x ∈ (enqueueChildren children (e, q)).1 := by
  induction children with
  | nil => intro e q x hx; exact hx
  | cons ch rest ih =>
    intro e q x hx
    rw [enqueueChildren_cons]
    by_cases hch : ch ∈ e
    · rw [if_pos hch]; exact ih e q x hx
    · rw [if_neg hch]; exact ih _ _ x (List.mem_append_left _ hx)

theorem enqueue_qmono (children : List Nat) :
    ∀ e q x, x ∈ q → x ∈ (enqueueChildren children (e, q)).2 := by
  induction children with
  | nil => intro e q x hx; exact hx
  | cons ch rest ih =>
    intro e q x hx
    rw [enqueueChildren_cons]
    by_cases hch : ch ∈ e
    · rw [if_pos hch]; exact ih e q x hx
    · rw [if_neg hch]; exact ih _ _ x (List.mem_append_left _ hx)

theorem enqueue_mem_children (children : List Nat) :
    ∀ e q c, c ∈ children → c ∈ (enqueueChildren children (e, q)).1 := by
  induction children with
  | nil => intro e q c hc; cases hc
  | cons ch rest ih =>
    intro e q c hc
    rw [enqueueChildren_cons]
    by_cases hch : ch ∈ e
    · rw [if_pos hch]
      rcases List.mem_cons.mp hc with rfl | hc
      · exact enqueue_mem_left rest e q c hch
      · exact ih e q c hc
    · rw [if_neg hch]
      rcases List.mem_cons.mp hc with rfl | hc
      · exact enqueue_mem_left rest _ _ c (List.mem_append_right _ (by simp))
      · exact ih _ _ c hc

theorem enqueue_sub (children : List Nat) :
    ∀ e q x, x ∈ (enqueueChildren children (e, q)).1 → x ∈ e ∨ x ∈ children := by
  induction children with
  | nil => intro e q x hx; exact .inl hx
  | cons ch rest ih =>
    intro e q x hx
    rw [enqueueChildren_cons] at hx
    by_cases hch : ch ∈ e
    · rw [if_pos hch] at hx
      rcases ih e q x hx with h | h
      · exact .inl h
      · exact .inr (List.mem_cons_of_mem _ h)
    · rw [if_neg hch] at hx
      rcases ih _ _ x hx with h | h
      · rcases List.mem_append.mp h with h | h
        · exact .inl h
        · simp at h; subst h; exact .inr (by simp)
      · exact .inr (List.mem_cons_of_mem _ h)

theorem enqueue_qsub (children : List Nat) :
    ∀ e q x, x ∈ (enqueueChildren children (e, q)).2 → x ∈ q ∨ x ∈ children := by
  induction children with
  | nil => intro e q x hx; exact .inl hx
  | cons ch rest ih =>
    intro e q x hx
    rw [enqueueChildren_cons] at hx
    by_cases hch : ch ∈ e
    · rw [if_pos hch] at hx
      rcases ih e q x hx with h | h
      · exact .inl h
      · exact .inr (List.mem_cons_of_mem _ h)
    · rw [if_neg hch] at hx
      rcases ih _ _ x hx with h | h
      · rcases List.mem_append.mp h with h | h
        · exact .inl h
        · simp at h; subst h; exact .inr (by simp)
      · exact .inr (List.mem_cons_of_mem _ h)

theorem enqueue_new_in_queue (children : List Nat) :
    ∀ e q x, x ∈ (enqueueChildren children (e, q)).1 →
      x ∈ e ∨ x ∈ (enqueueChildren children (e, q)).2 := by
  induction children with
  | nil => intro e q x hx; exact .inl hx
  | cons ch rest ih =>
    intro e q x hx
    rw [enqueueChildren_cons] at hx ⊢
    by_cases hch : ch ∈ e
    · rw [if_pos hch] at hx ⊢
      exact ih e q x hx
    · rw [if_neg hch] at hx ⊢
      rcases ih _ _ x hx with h | h
      · rcases List.mem_append.mp h with h | h
        · exact .inl h
        · simp at h; subst h
          exact .inr (enqueue_qmono rest _ _ x (List.mem_append_right _ (by simp)))
      · exact .inr h

theorem bfs_nil (cats : List Category) (e : List Nat) : bfs cats e [] = e := by
  rw [bfs]

theorem bfs_cons (cats : List Category) (e : List Nat) (cur : Nat)
    (rest : List Nat) :
    bfs cats e (cur :: rest) =
      bfs cats (enqueueChildren (childIds cats cur) (e, rest)).1
        (enqueueChildren (childIds cats cur) (e, rest)).2 := by
  rw [bfs]

/-- Everything the BFS returns is either initially visited or reachable
from a queued node in at least one child step. -/
theorem bfs_sound (cats : List Category) :
    ∀ e q z, z ∈ bfs cats e q →
      z ∈ e ∨ ∃ y ∈ q, Relation.TransGen (ChildRel cats) y z := by
  intro e q
  induction e, q using bfs.induct cats with
  | case1 e =>
    intro z hz
    rw [bfs_nil] at hz
    exact .inl hz
  | case2 e cur rest ih =>
    intro z hz
    rw [bfs_cons] at hz
    rcases ih z hz with h | ⟨y, hy, htg⟩
    · rcases enqueue_sub _ _ _ z h with h | h
      · exact .inl h
      · exact .inr ⟨cur, by simp, Relation.TransGen.single (childIds_mem_iff.mp h)⟩
    · rcases enqueue_qsub _ _ _ y hy with h | h
      · exact .inr ⟨y, List.mem_cons_of_mem _ h, htg⟩
      · exact .inr ⟨cur, by simp,
          Relation.TransGen.head (childIds_mem_iff.mp h) htg⟩

/-- The visited set only grows. -/
theorem bfs_mono (cats : List Category) :
    ∀ e q x, x ∈ e → x ∈ bfs cats e q := by
  intro e q
  induction e, q using bfs.induct cats with
  | case1 e =>
    intro x hx
    rw [bfs_nil]
    exact hx
  | case2 e cur rest ih =>
    intro x hx
    rw [bfs_cons]
    exact ih x (enqueue_mem_left _ _ _ x hx)

/-- If every visited node is queued or has all children visited, the BFS
result is closed under the child relation. -/
theorem bfs_closed (cats : List Category) :
    ∀ e q, (∀ y ∈ e, y ∈ q ∨ ∀ z, ChildRel cats y z → z ∈ e) →
      ∀ y ∈ bfs cats e q, ∀ z, ChildRel cats y z → z ∈ bfs cats e q := by
  intro e q
  induction e, q using bfs.induct cats with
  | case1 e =>
    intro hfront y hy z hz
    rw [bfs_nil] at hy ⊢
    rcases hfront y hy with h | h
    · cases h
    · exact h z hz
  | case2 e cur rest ih =>
    intro hfront
    rw [bfs_cons]
    apply ih
    intro y hy
    rcases enqueue_sub _ _ _ y hy with hye | hyc
    · rcases hfront y hye with hq | hcl
      · rcases List.mem_cons.mp hq with rfl | hq
        · right
          intro z hz
          exact enqueue_mem_children _ _ _ z (childIds_mem_iff.mpr hz)
        · left
          exact enqueue_qmono _ _ _ y hq
      · right
        intro z hz
        exact enqueue_mem_left _ _ _ z (hcl z hz)
    · rcases enqueue_new_in_queue _ _ _ y hy with hye | hyq
      · rcases hfront y hye with hq | hcl
        · rcases List.mem_cons.mp hq with rfl | hq
          · right
            intro z hz
            exact enqueue_mem_children _ _ _ z (childIds_mem_iff.mpr hz)
          · left
            exact enqueue_qmono _ _ _ y hq
        · right
          intro z hz
          exact enqueue_mem_left _ _ _ z (hcl z hz)
      · left
        exact hyq

/-- The single-root expansion computes exactly reflexive-transitive
reachability along child links. -/
theorem mem_gatherAll_single (cats : List Category) (x z : Nat) :
    z ∈ gatherAll cats [x] ↔ Relation.ReflTransGen (ChildRel cats) x z := by
  have hg : gatherAll cats [x] = bfs cats [x] [x] := by
    simp [gatherAll]
  rw [hg]
  constructor
  · intro hz
    rcases bfs_sound cats [x] [x] z hz with h | ⟨y, hy, htg⟩
    · simp at h
      subst h
      exact Relation.ReflTransGen.refl
    · simp at hy
      subst hy
      exact htg.to_reflTransGen
  · intro hrt
    have hclosed := bfs_closed cats [x] [x]
      (by intro y hy; left; simpa using hy)
    induction hrt with
    | refl => exact bfs_mono cats [x] [x] x (by simp)
    | tail hab hbc ihab => exact hclosed _ ihab _ hbc

/-- C5: descendant expansion maps the empty filter set to the empty set,
and the expansion of a single id x contains x and exactly the ids
reachable from x by following child links; the traversal is a total
function (the visited-set guard terminates it even without assuming
acyclicity of `parent_id`, so the claim's acyclicity hypothesis is not
needed). -/
theorem gatherAll_spec (cats : List Category) :
    gatherAll cats [] = [] ∧
    ∀ x z, z ∈ gatherAll cats [x] ↔
      Relation.ReflTransGen (ChildRel cats) x z := by
  constructor
  · rfl
  · intro x z
    exact mem_gatherAll_single cats x z

/-- C6: for every owner and every parent tag id, listing payment items
filtered by that id succeeds and returns exactly the owner's items linked
to the id or to any tag reachable from it by child links — transactions
tagged only outside that descendant closure (e.g. an unrelated sibling)
are excluded. -/
theorem listPaymentItems_parent_filter (db : DB) (uid x : Nat) :
    ∃ l, listPaymentItems uid false false (some [x]) db = .ok l ∧
      ∀ it, it ∈ l ↔ (it ∈ db.items ∧ it.user_id = some uid ∧
        ∃ L ∈ db.links, L.payment_item_id = it.id ∧
          Relation.ReflTransGen (ChildRel db.categories) x L.category_id) := by
  refine ⟨_, rfl, ?_⟩
  intro it
  rw [listPaymentItems_mem uid false false (some [x]) db _ rfl it]
  constructor
  · rintro ⟨h1, h2, -, -, h5⟩
    obtain ⟨L, hL, hpid, hcat⟩ := h5 x [] rfl
    exact ⟨h1, h2, L, hL, hpid, (mem_gatherAll_single _ _ _).mp hcat⟩
  · rintro ⟨h1, h2, L, hL, hpid, hreach⟩
    refine ⟨h1, h2, by simp, by simp, ?_⟩
    rintro c cs hcc
    injection hcc with hcc
    injection hcc with h1 h2
    subst h1
    subst h2
    exact ⟨L, hL, hpid, (mem_gatherAll_single _ _ _).mpr hreach⟩

/-! ## C3: parent validation in create_category -/

/-- Two-owner store: owner 1 has dimension 5, owner 2 has dimension 6 and
tag node 9 inside it. -/
def db3 : DB :=
  DB.mk
    [CategoryType.mk 5 "misc".toList none (some 1),
     CategoryType.mk 6 "standard".toList none (some 2)]
    [Category.mk 9 "Other".toList 6 none none (some 2)]
    [] [] [] 10 1 1

/-- C3 counterexample: owner 1 creates a tag node in dimension 5 whose
parent is owner 2's node 9 of dimension 6 — a different owner and a
different dimension — and the operation succeeds instead of failing with
NotFound. -/
theorem createCategory_foreign_parent_accepted :
    (createCategory 1 (CategoryCreate.mk "child".toList 5 (some 9) none)
        db3).isOk = true ∧
    ∃ c ∈ db3.categories, c.id = 9 ∧ c.user_id = some 2 ∧ c.type_id = 6 := by
  decide

/-- C3 amended: with a truthy `parent_id`, creation succeeds only if the
parent id resolves to some existing category — the parent's owner and
dimension are not checked; when the parent id resolves to nothing and the
name checks pass, the operation fails with NotFound. -/
theorem createCategory_parent_existence (uid : Nat) (req : CategoryCreate)
    (db : DB) :
    (∀ r, createCategory uid req db = .ok r → truthy req.parent_id = true →
      (findCategory db (req.parent_id.getD 0)).isSome = true) ∧
    ((normalizeL req.name).isEmpty = false →
      (∀ c ∈ db.categories, c.user_id = some uid →
        normalizeL c.name ≠ normalizeL req.name) →
      truthy req.parent_id = true →
      findCategory db (req.parent_id.getD 0) = none →
      createCategory uid req db = .error .notFound) := by
  constructor
  · intro r hr htr
    rw [createCategory] at hr
    by_cases h1 : (normalizeL req.name).isEmpty
    · rw [if_pos h1] at hr
      cases hr
    · rw [if_neg h1] at hr
      by_cases h2 : ((db.categories.filter (fun c => c.user_id == some uid)).any
          (fun c => normalizeL c.name == normalizeL req.name)) = true
      · rw [if_pos h2] at hr
        cases hr
      · rw [if_neg h2] at hr
        by_cases h3 : (truthy req.parent_id &&
            (findCategory db (req.parent_id.getD 0)).isNone) = true
        · rw [if_pos h3] at hr
          cases hr
        · rw [htr] at h3
          simp only [Bool.true_and] at h3
          cases hf : findCategory db (req.parent_id.getD 0) with
          | none => rw [hf] at h3; simp at h3
          | some c => simp
  · intro hne hcol htr hfind
    rw [createCategory]
    rw [if_neg (by simp [hne])]
    have h2 : ((db.categories.filter (fun c => c.user_id == some uid)).any
        (fun c => normalizeL c.name == normalizeL req.name)) = false := by
      rw [List.any_eq_false]
      intro c hc
      rw [List.mem_filter] at hc
      have := hcol c hc.1 (by simpa using hc.2)
      simpa using this
    rw [if_neg (by simp [h2])]
    rw [if_pos (by rw [htr, hfind]; rfl)]

/-- C3 amended witness: parent id 99 resolves to nothing, so creation
fails with NotFound. -/
theorem createCategory_parent_existence_witness :
    createCategory 1 (CategoryCreate.mk "kid".toList 5 (some 99) none) db3 =
      .error .notFound :=
  (createCategory_parent_existence 1
      (CategoryCreate.mk "kid".toList 5 (some 99) none) db3).2
    (by decide) (by decide) (by decide) (by decide)

/-! ## C8: header gate of import_csv -/

/-- Single-owner store with the seeded standard dimension and
UNCLASSIFIED tag. -/
def db8 : DB :=
  DB.mk
    [CategoryType.mk 7 "standard".toList none (some 1)]
    [Category.mk 2 "UNCLASSIFIED".toList 7 none none (some 1)]
    [] [] [] 3 1 1

/-- C8 counterexample: a header line whose text deviates from the
expected header (a leading space in the first cell) is accepted, because
the code strips each cell before comparing; the import then runs to
success instead of failing Validation. -/
theorem importCsv_header_strip_accepted :
    List.intercalate ";".toList
        [" amount".toList, "date".toList, "description".toList,
         "Recipient name".toList, "Recipient address".toList,
         "standard_category name".toList, "periodic".toList] ≠ CSV_HEADER ∧
    (importCsv 1
        [[" amount".toList, "date".toList, "description".toList,
          "Recipient name".toList, "Recipient address".toList,
          "standard_category name".toList, "periodic".toList],
         ["100".toList, "2024-01-01".toList, "Groceries".toList,
          "ACME".toList, "123 Main St".toList, "Food".toList,
          "false".toList]]
        db8).isOk = true := by
  decide

/-- C8 amended: a header whose cells, after per-cell stripping, do not
join with ";" into the expected header line makes the import fail with
the Validation header error before any data row is processed (the error
is the same for every data row list). -/
theorem importCsv_header_gate (uid : Nat) (header_row : List Str)
    (data_rows : List (List Str)) (db : DB)
    (h : List.intercalate ";".toList (header_row.map pyStrip) ≠ CSV_HEADER) :
    importCsv uid (header_row :: data_rows) db = .error .badHeader := by
  simp only [importCsv]
  rw [if_pos h]

/-- C8 amended witness. -/
theorem importCsv_header_gate_witness :
    importCsv 1 [["bogus".toList]] db8 = .error .badHeader :=
  importCsv_header_gate 1 ["bogus".toList] [] db8 (by decide)

/-! ## C7: all-or-nothing import -/

/-- A non-blank data row that fails at least one validation check of the
parse phase of `import_csv` (column count, amount/date/periodic patterns,
length caps, calendar validity). -/
def badDataRow (row : List Str) : Bool :=
  !blankRow row &&
    (decide (row.length ≠ CSV_HEADER_FIELDS.length) ||
     !amountPattern (pyStrip (row.getD 0 [])) ||
     !datePattern (pyStrip (row.getD 1 [])) ||
     !booleanPattern ((pyStrip (row.getD 6 [])).map Char.toLower) ||
     decide ((pyStrip (canonNewlines (row.getD 2 []))).isEmpty = false ∧
       MAX_DESCRIPTION_LENGTH < (pyStrip (canonNewlines (row.getD 2 []))).length) ||
     decide ((pyStrip (row.getD 3 [])).isEmpty = false ∧
       MAX_RECIPIENT_NAME_LENGTH < (pyStrip (row.getD 3 [])).length) ||
     decide ((pyStrip (canonNewlines (row.getD 4 []))).isEmpty = false ∧
       MAX_RECIPIENT_ADDRESS_LENGTH < (pyStrip (canonNewlines (row.getD 4 []))).length) ||
     decide ((pyStrip (row.getD 5 [])).isEmpty = false ∧
       MAX_CATEGORY_NAME_LENGTH < (pyStrip (row.getD 5 [])).length) ||
     !strptimeOk (digitsToNat ((pyStrip (row.getD 1 [])).take 4))
       (digitsToNat (((pyStrip (row.getD 1 [])).drop 5).take 2))
       (digitsToNat ((pyStrip (row.getD 1 [])).drop 8)))

theorem bool_ne_false {b : Bool} (h : ¬ b = false) : b = true := by
  cases b
  · exact absurd rfl h
  · rfl

theorem cap_ok {l : List Char} {M : Nat}
    (h : ¬(l.isEmpty = false ∧ M < l.length)) (hne : ¬ l = []) :
    l.length ≤ M := by
  by_contra hlt
  apply h
  constructor
  · cases l with
    | nil => exact absurd rfl hne
    | cons a as => rfl
  · omega

/-- The parse phase either succeeds — returning exactly the records of
the non-blank rows, each passing validation — or fails with a row-level
Validation error. -/
theorem parseDataRows_cases (i : Nat) (rows : List (List Str)) :
    (parseDataRows i rows =
        .ok ((rows.filter (fun r => !blankRow r)).map mkParsedRow) ∧
      ∀ r ∈ rows, badDataRow r = false) ∨
    (∃ j f, parseDataRows i rows = .error (.invalidRow j f)) := by
  induction rows generalizing i with
  | nil => exact .inl ⟨rfl, by intro r hr; cases hr⟩
  | cons row rest ih =>
    simp only [parseDataRows]
    by_cases hblank : blankRow row = true
    · rw [if_pos hblank]
      rcases ih (i + 1) with ⟨hok, hall⟩ | ⟨j, f, herr⟩
      · refine .inl ⟨?_, ?_⟩
        · rw [List.filter_cons_of_neg (by simp [hblank])]
          exact hok
        · intro r hr
          rcases List.mem_cons.mp hr with rfl | hr
          · simp [badDataRow, hblank]
          · exact hall r hr
      · exact .inr ⟨j, f, herr⟩
    · rw [if_neg hblank]
      by_cases h1 : row.length ≠ CSV_HEADER_FIELDS.length
      · rw [if_pos h1]
        exact .inr ⟨i, .columns, rfl⟩
      · rw [if_neg h1]
        by_cases h2 : amountPattern (pyStrip (row.getD 0 [])) = false
        · rw [if_pos h2]
          exact .inr ⟨i, .amount, rfl⟩
        · rw [if_neg h2]
          by_cases h3 : datePattern (pyStrip (row.getD 1 [])) = false
          · rw [if_pos h3]
            exact .inr ⟨i, .date, rfl⟩
          · rw [if_neg h3]
            by_cases h4 : booleanPattern ((pyStrip (row.getD 6 [])).map Char.toLower) = false
            · rw [if_pos h4]
              exact .inr ⟨i, .periodic, rfl⟩
            · rw [if_neg h4]
              by_cases h5 : (pyStrip (canonNewlines (row.getD 2 []))).isEmpty = false ∧
                  MAX_DESCRIPTION_LENGTH < (pyStrip (canonNewlines (row.getD 2 []))).length
              · rw [if_pos h5]
                exact .inr ⟨i, .descriptionLen, rfl⟩
              · rw [if_neg h5]
                by_cases h6 : (pyStrip (row.getD 3 [])).isEmpty = false ∧
                    MAX_RECIPIENT_NAME_LENGTH < (pyStrip (row.getD 3 [])).length
                · rw [if_pos h6]
                  exact .inr ⟨i, .recipientNameLen, rfl⟩
                · rw [if_neg h6]
                  by_cases h7 : (pyStrip (canonNewlines (row.getD 4 []))).isEmpty = false ∧
                      MAX_RECIPIENT_ADDRESS_LENGTH < (pyStrip (canonNewlines (row.getD 4 []))).length
                  · rw [if_pos h7]
                    exact .inr ⟨i, .recipientAddressLen, rfl⟩
                  · rw [if_neg h7]
                    by_cases h8 : (pyStrip (row.getD 5 [])).isEmpty = false ∧
                        MAX_CATEGORY_NAME_LENGTH < (pyStrip (row.getD 5 [])).length
                    · rw [if_pos h8]
                      exact .inr ⟨i, .categoryNameLen, rfl⟩
                    · rw [if_neg h8]
                      by_cases h9 : strptimeOk
                          (digitsToNat ((pyStrip (row.getD 1 [])).take 4))
                          (digitsToNat (((pyStrip (row.getD 1 [])).drop 5).take 2))
                          (digitsToNat ((pyStrip (row.getD 1 [])).drop 8)) = false
                      · rw [if_pos h9]
                        exact .inr ⟨i, .dateValue, rfl⟩
                      · rw [if_neg h9]
                        rcases ih (i + 1) with ⟨hok, hall⟩ | ⟨j, f, herr⟩
                        · rw [hok]
                          refine .inl ⟨?_, ?_⟩
                          · rw [List.filter_cons_of_pos (by simp [hblank])]
                            rfl
                          intro r hr
                          rcases List.mem_cons.mp hr with rfl | hr
                          · have hb : blankRow r = false := by
                              simpa using hblank
                            simp only [badDataRow, hb, Bool.not_false,
                              Bool.true_and, decide_eq_false h1,
                              bool_ne_false h2, bool_ne_false h3,
                              bool_ne_false h4, decide_eq_false h5,
                              decide_eq_false h6, decide_eq_false h7,
                              decide_eq_false h8, bool_ne_false h9,
                              Bool.not_true, Bool.false_or, Bool.or_false]
                          · exact hall r hr
                        · rw [herr]
                          exact .inr ⟨j, f, rfl⟩

/-- Observable store after one import call: the session commits on
success and rolls back completely on any error. -/
def runImport (uid : Nat) (rows : List (List Str)) (db : DB) : DB :=
  match importCsv uid rows db with
  | .ok (db2, _) => db2
  | .error _ => db

/-- C7: if the header passes and any single non-blank data row fails
validation, the import aborts with a row-level Validation error naming a
row, and no entity is written — the observable store is unchanged; all
validation happens in the parse phase, before any mutation is issued. -/
theorem importCsv_all_or_nothing (uid : Nat) (header_row : List Str)
    (data_rows : List (List Str)) (db : DB)
    (hheader : List.intercalate ";".toList (header_row.map pyStrip) = CSV_HEADER)
    (hbad : ∃ r ∈ data_rows, badDataRow r = true) :
    (∃ i f, importCsv uid (header_row :: data_rows) db =
      .error (.invalidRow i f)) ∧
    runImport uid (header_row :: data_rows) db = db := by
  have hmain : ∃ i f, importCsv uid (header_row :: data_rows) db =
      .error (.invalidRow i f) := by
    simp only [importCsv]
    rw [if_neg (not_ne_iff.mpr hheader)]
    rcases parseDataRows_cases 2 data_rows with ⟨hok, hall⟩ | ⟨j, f, herr⟩
    · obtain ⟨r, hr, hbadr⟩ := hbad
      rw [hall r hr] at hbadr
      cases hbadr
    · rw [herr]
      exact ⟨j, f, rfl⟩
  refine ⟨hmain, ?_⟩
  obtain ⟨i, f, heq⟩ := hmain
  simp only [runImport, heq]

/-- C7 witness: a batch whose single data row has a malformed amount is
rejected with a row error and leaves the store unchanged. -/
theorem importCsv_all_or_nothing_witness :
    (∃ i f, importCsv 1
        [CSV_HEADER_FIELDS,
         ["abc".toList, "2024-01-01".toList, [], [], [], [], "true".toList]]
        db8 = .error (.invalidRow i f)) ∧
    runImport 1
        [CSV_HEADER_FIELDS,
         ["abc".toList, "2024-01-01".toList, [], [], [], [], "true".toList]]
        db8 = db8 :=
  importCsv_all_or_nothing 1 CSV_HEADER_FIELDS
    [["abc".toList, "2024-01-01".toList, [], [], [], [], "true".toList]]
    db8 (by decide) (by decide)

/-! ## C2: duplicate dimension conflicts -/

/-- Observable store after one create call. -/
def runCreate (uid : Nat) (req : PaymentItemCreate) (db : DB) : DB :=
  match createPaymentItem uid req db with
  | .ok (db2, _) => db2
  | .error _ => db

/-- Observable store after one update call. -/
def runUpdate (uid item_id : Nat) (req : PaymentItemUpdatePayload) (db : DB) :
    DB :=
  match updatePaymentItem uid item_id req db with
  | .ok (db2, _) => db2
  | .error _ => db

/-- When every requested id resolves to a category of the caller, the
validation loop can only succeed or report the duplicate-dimension
conflict. -/
theorem validateCats_resolved (db : DB) (uid : Nat) (stdTid : Option Nat) :
    ∀ (l seen acc : List Nat) (std : Option Nat),
      (∀ cid ∈ l, ∃ c, findCategory db cid = some c ∧ c.user_id = some uid) →
      (∃ r, validateCats db uid stdTid l seen acc std = .ok r) ∨
      validateCats db uid stdTid l seen acc std = .error .conflictCategoryType := by
  intro l
  induction l with
  | nil => intro seen acc std hres; exact .inl ⟨(acc, std), rfl⟩
  | cons cid rest ih =>
    intro seen acc std hres
    obtain ⟨c, hc, hcu⟩ := hres cid (by simp)
    rw [validateCats, hc]
    dsimp only
    rw [if_neg (by rw [hcu]; exact fun hne => hne rfl)]
    by_cases hseen : c.type_id ∈ seen
    · rw [if_pos hseen]
      exact .inr rfl
    · rw [if_neg hseen]
      exact ih _ _ _ (fun x hx => hres x (List.mem_cons_of_mem _ hx))

/-- A successful validation loop saw pairwise distinct dimensions. -/
theorem validateCats_ok_pairwise (db : DB) (uid : Nat) (stdTid : Option Nat) :
    ∀ (l seen acc : List Nat) (std : Option Nat) (r : List Nat × Option Nat),
      validateCats db uid stdTid l seen acc std = .ok r →
      (∀ cid ∈ l, ∀ c, findCategory db cid = some c → c.type_id ∉ seen) ∧
      l.Pairwise (fun a b => ∀ ca cb, findCategory db a = some ca →
        findCategory db b = some cb → ca.type_id ≠ cb.type_id) := by
  intro l
  induction l with
  | nil =>
    intro seen acc std r hr
    exact ⟨fun cid h => absurd h (by simp), .nil⟩
  | cons cid rest ih =>
    intro seen acc std r hr
    rw [validateCats] at hr
    cases hfind : findCategory db cid with
    | none => rw [hfind] at hr; cases hr
    | some c =>
      rw [hfind] at hr
      dsimp only at hr
      by_cases hu : c.user_id ≠ some uid
      · rw [if_pos hu] at hr; cases hr
      · rw [if_neg hu] at hr
        by_cases hseen : c.type_id ∈ seen
        · rw [if_pos hseen] at hr; cases hr
        · rw [if_neg hseen] at hr
          obtain ⟨ih1, ih2⟩ := ih _ _ _ _ hr
          constructor
          · intro cid2 hcid2 c2 hc2
            rcases List.mem_cons.mp hcid2 with rfl | hcid2
            · rw [hfind] at hc2
              injection hc2 with hc2
              subst hc2
              exact hseen
            · intro hmem
              exact ih1 cid2 hcid2 c2 hc2 (List.mem_append_left _ hmem)
          · refine List.Pairwise.cons ?_ ih2
            intro b hb ca cb hca hcb
            rw [hfind] at hca
            injection hca with hca
            subst hca
            intro heq
            exact ih1 b hb cb hcb
              (by rw [← heq]; exact List.mem_append_right _ (by simp))

/-- C2: a create or update whose requested category-id list has two
positions resolving to the caller's categories with the same dimension
fails with the duplicate-dimension Conflict, and the stored links and
shortcut of the item are untouched (the session rolls back, so the
observable store is unchanged). -/
theorem duplicate_dimension_conflict (db : DB) (uid : Nat) :
    (∀ (req : PaymentItemCreate),
      req.recipient_id = none →
      (∀ cid ∈ req.category_ids, ∃ c, findCategory db cid = some c ∧
        c.user_id = some uid) →
      (∃ (i j a b : Nat) (ca cb : Category), i < j ∧
        req.category_ids[i]? = some a ∧ req.category_ids[j]? = some b ∧
        findCategory db a = some ca ∧ findCategory db b = some cb ∧
        ca.type_id = cb.type_id) →
      createPaymentItem uid req db = .error .conflictCategoryType ∧
      runCreate uid req db = db) ∧
    (∀ (item_id : Nat) (req : PaymentItemUpdatePayload) (it0 : PaymentItem),
      findItem db item_id = some it0 → it0.user_id = some uid →
      req.recipient_id = none →
      (∀ (cids : List Nat), req.category_ids = some cids →
        (∀ cid ∈ cids, ∃ c, findCategory db cid = some c ∧
          c.user_id = some uid) →
        (∃ (i j a b : Nat) (ca cb : Category), i < j ∧ cids[i]? = some a ∧
          cids[j]? = some b ∧ findCategory db a = some ca ∧
          findCategory db b = some cb ∧ ca.type_id = cb.type_id) →
        updatePaymentItem uid item_id req db = .error .conflictCategoryType ∧
        runUpdate uid item_id req db = db)) := by
  have hkey : ∀ (cids : List Nat),
      (∀ cid ∈ cids, ∃ c, findCategory db cid = some c ∧
        c.user_id = some uid) →
      (∃ (i j a b : Nat) (ca cb : Category), i < j ∧ cids[i]? = some a ∧
        cids[j]? = some b ∧ findCategory db a = some ca ∧
        findCategory db b = some cb ∧ ca.type_id = cb.type_id) →
      ∀ (stdTid : Option Nat),
        validateCats db uid stdTid cids [] [] none =
          .error .conflictCategoryType := by
    intro cids hres hdup stdTid
    rcases validateCats_resolved db uid stdTid cids [] [] none hres with
      ⟨r, hok⟩ | herr
    · exfalso
      obtain ⟨-, hpw⟩ := validateCats_ok_pairwise db uid stdTid cids [] [] none r hok
      obtain ⟨i, j, a, b, ca, cb, hij, hia, hjb, hca, hcb, htype⟩ := hdup
      have hj : j < cids.length := by
        by_contra hge
        rw [List.getElem?_eq_none (by omega)] at hjb
        cases hjb
      have hi : i < cids.length := by omega
      rw [List.getElem?_eq_getElem hi] at hia
      rw [List.getElem?_eq_getElem hj] at hjb
      injection hia with hia
      injection hjb with hjb
      have := (List.pairwise_iff_getElem.mp hpw) i j hi hj hij
      rw [hia, hjb] at this
      exact this ca cb hca hcb htype
    · exact herr
  constructor
  · intro req hrec hres hdup
    have hne : req.category_ids ≠ [] := by
      obtain ⟨i, j, a, b, ca, cb, hij, hia, hjb, -⟩ := hdup
      intro hnil
      rw [hnil] at hjb
      cases hjb
    have hmain : createPaymentItem uid req db = .error .conflictCategoryType := by
      rw [createPaymentItem]
      rw [if_neg (by rw [hrec]; simp [truthy])]
      rw [if_neg (by rw [hrec]; simp [truthy])]
      dsimp only
      rw [if_pos hne]
      rw [hkey req.category_ids hres hdup]
    exact ⟨hmain, by simp only [runCreate, hmain]⟩
  · intro item_id req it0 hfind hu hrec cids hcids hres hdup
    have hne : cids ≠ [] := by
      obtain ⟨i, j, a, b, ca, cb, hij, hia, hjb, -⟩ := hdup
      intro hnil
      rw [hnil] at hjb
      cases hjb
    have hmain : updatePaymentItem uid item_id req db =
        .error .conflictCategoryType := by
      rw [updatePaymentItem, hfind]
      dsimp only
      rw [if_neg (by rw [hu]; exact fun hne2 => hne2 rfl)]
      rw [if_neg (by rw [hrec]; simp [truthy])]
      rw [if_neg (by rw [hrec]; simp [truthy])]
      rw [hcids]
      dsimp only
      rw [if_pos hne]
      rw [hkey cids hres hdup]
    exact ⟨hmain, by simp only [runUpdate, hmain]⟩

/-- One-owner store with two tag nodes in the same dimension 7. -/
def dbC2 : DB :=
  DB.mk
    [CategoryType.mk 7 "standard".toList none (some 1)]
    [Category.mk 3 "Food".toList 7 none none (some 1),
     Category.mk 4 "Rent".toList 7 none none (some 1)]
    [] [] [] 5 1 1

/-- C2 witness: requesting tags 3 and 4, both of dimension 7, makes the
create fail with the duplicate-dimension conflict and leaves the store
unchanged. -/
theorem duplicate_dimension_conflict_witness :
    createPaymentItem 1
        (PaymentItemCreate.mk 5 (DateV.mk 2024 1 1) false none none none
          [3, 4]) dbC2 = .error .conflictCategoryType ∧
    runCreate 1
        (PaymentItemCreate.mk 5 (DateV.mk 2024 1 1) false none none none
          [3, 4]) dbC2 = dbC2 :=
  (duplicate_dimension_conflict dbC2 1).1
    (PaymentItemCreate.mk 5 (DateV.mk 2024 1 1) false none none none [3, 4])
    rfl
    (by
      intro cid hcid
      rcases List.mem_cons.mp hcid with rfl | hcid
      · exact ⟨Category.mk 3 "Food".toList 7 none none (some 1), rfl, rfl⟩
      · rcases List.mem_cons.mp hcid with rfl | hcid
        · exact ⟨Category.mk 4 "Rent".toList 7 none none (some 1), rfl, rfl⟩
        · cases hcid)
    ⟨0, 1, 3, 4, Category.mk 3 "Food".toList 7 none none (some 1),
      Category.mk 4 "Rent".toList 7 none none (some 1),
      by decide, rfl, rfl, rfl, rfl, rfl⟩

/-! ## C1: the standard shortcut invariant -/

/-- The id of the owner's standard dimension, as computed by the
endpoints (`standard_type.id if standard_type else None`). -/
def stdTypeId (db : DB) (uid : Nat) : Option Nat :=
  (standardType db uid).map (fun t => t.id)

/-- `cid` denotes a stored tag node of the owner's standard dimension. -/
def IsStdCat (db : DB) (uid cid : Nat) : Prop :=
  ∃ c ∈ db.categories, c.id = cid ∧ stdTypeId db uid = some c.type_id

/-- The category ids linked to one payment item. -/
def linkedCats (db : DB) (it : PaymentItem) : List Nat :=
  (db.links.filter (fun L => L.payment_item_id == it.id)).map
    (fun L => L.category_id)

/-- Invariant (2) of the spec for one item: the standard shortcut is
exactly the linked tag of the owner's standard dimension, or null when
there is none. -/
def StdShortcutOK (db : DB) (it : PaymentItem) : Prop :=
  ∀ uid, it.user_id = some uid →
    ((∀ cid ∈ linkedCats db it, ¬ IsStdCat db uid cid) →
      it.standard_category_id = none) ∧
    (∀ cid ∈ linkedCats db it, IsStdCat db uid cid →
      it.standard_category_id = some cid)

theorem findCategory_mem {db : DB} {cid : Nat} {c : Category}
    (h : findCategory db cid = some c) : c ∈ db.categories ∧ c.id = cid := by
  refine ⟨List.mem_of_find?_eq_some h, ?_⟩
  have h2 := List.find?_some h
  simpa using h2

theorem find_by_id_eq_of_mem {l : List Category}
    (hnd : (l.map (fun c => c.id)).Nodup) {c : Category} (hc : c ∈ l) :
    l.find? (fun x => x.id == c.id) = some c := by
  induction l with
  | nil => cases hc
  | cons d rest ih =>
    rw [List.map_cons, List.nodup_cons] at hnd
    rcases List.mem_cons.mp hc with rfl | hc
    · rw [List.find?_cons_of_pos _ (by simp)]
    · by_cases hdc : (d.id == c.id) = true
      · exfalso
        apply hnd.1
        rw [List.mem_map]
        exact ⟨c, hc, (beq_iff_eq.mp hdc).symm⟩
      · rw [List.find?_cons_of_neg _ (by simpa using hdc)]
        exact ih hnd.2 hc

theorem findCategory_eq_of_mem {db : DB}
    (hnd : (db.categories.map (fun c => c.id)).Nodup)
    {c : Category} (hc : c ∈ db.categories) :
    findCategory db c.id = some c :=
  find_by_id_eq_of_mem hnd hc

/-- Store for the drift counterexample: owner 1 with standard dimension
7 and secondary dimension 8; item 10 is linked to standard tag 3. -/
def dbC1 : DB :=
  DB.mk
    [CategoryType.mk 7 "standard".toList none (some 1),
     CategoryType.mk 8 "method".toList none (some 1)]
    [Category.mk 3 "Food".toList 7 none none (some 1),
     Category.mk 4 "Cash".toList 8 none none (some 1)]
    []
    [PaymentItem.mk 10 5 (DateV.mk 2024 1 1) false none none (some 3) (some 1)]
    [PaymentItemCategoryLink.mk 10 3]
    5 1 11

/-- Update payload that sets the shortcut but omits `category_ids`. -/
def reqC1 : PaymentItemUpdatePayload :=
  { standard_category_id := some (some 4) }

/-- Store after the drifting update. -/
def dbC1' : DB :=
  { dbC1 with
    items := [PaymentItem.mk 10 5 (DateV.mk 2024 1 1) false none none
      (some 4) (some 1)] }

/-- Item after the drifting update. -/
def itC1' : PaymentItem :=
  PaymentItem.mk 10 5 (DateV.mk 2024 1 1) false none none (some 4) (some 1)

/-- C1 counterexample: the update succeeds, writes shortcut 4 verbatim,
and leaves the link set at {3}, whose element lies in the owner's
standard dimension — so the shortcut no longer equals the unique linked
standard tag. -/
theorem updatePaymentItem_shortcut_drift :
    updatePaymentItem 1 10 reqC1 dbC1 = .ok (dbC1', itC1') ∧
    ¬ StdShortcutOK dbC1' itC1' := by
  constructor
  · rfl
  · intro h
    have h2 := (h 1 rfl).2 3 (by decide)
      ⟨Category.mk 3 "Food".toList 7 none none (some 1), by decide, rfl, rfl⟩
    exact absurd h2 (by decide)

/-- Tracking lemma for the shared validation loop: on success, the final
accumulator resolves to the caller's categories, and the final standard
candidate is exactly the accumulated id whose category carries the
(truthy) standard type. -/
theorem validateCats_invariant (db : DB) (uid : Nat) (stdTid : Option Nat) :
    ∀ (l seen acc : List Nat) (std : Option Nat) (r : List Nat × Option Nat),
      validateCats db uid stdTid l seen acc std = .ok r →
      (∀ cid ∈ acc, ∃ c, findCategory db cid = some c ∧ c.user_id = some uid ∧
        c.type_id ∈ seen) →
      (∀ cid ∈ acc, ∀ c, findCategory db cid = some c →
        (truthy stdTid && stdTid == some c.type_id) = true → std = some cid) →
      (∀ cid, std = some cid → cid ∈ acc ∧ ∃ c, findCategory db cid = some c ∧
        (truthy stdTid && stdTid == some c.type_id) = true) →
      ((∀ cid ∈ r.1, ∃ c, findCategory db cid = some c ∧
        c.user_id = some uid) ∧
       (∀ cid ∈ r.1, ∀ c, findCategory db cid = some c →
         (truthy stdTid && stdTid == some c.type_id) = true →
         r.2 = some cid) ∧
       (∀ cid, r.2 = some cid → cid ∈ r.1 ∧ ∃ c, findCategory db cid = some c ∧
         (truthy stdTid && stdTid == some c.type_id) = true)) := by
  intro l
  induction l with
  | nil =>
    intro seen acc std r hr ha hb hc
    rw [validateCats] at hr
    injection hr with hr
    subst hr
    exact ⟨fun cid hcid => (ha cid hcid).imp (fun c hcc => ⟨hcc.1, hcc.2.1⟩),
      hb, hc⟩
  | cons cid rest ih =>
    intro seen acc std r hr ha hb hc
    rw [validateCats] at hr
    cases hfind : findCategory db cid with
    | none => rw [hfind] at hr; cases hr
    | some c =>
      rw [hfind] at hr
      dsimp only at hr
      by_cases hu : c.user_id ≠ some uid
      · rw [if_pos hu] at hr; cases hr
      · rw [if_neg hu] at hr
        rw [Ne, not_not] at hu
        by_cases hseen : c.type_id ∈ seen
        · rw [if_pos hseen] at hr; cases hr
        · rw [if_neg hseen] at hr
          refine ih _ _ _ _ hr ?_ ?_ ?_
          · intro cid2 hcid2
            rcases List.mem_append.mp hcid2 with hcid2 | hcid2
            · obtain ⟨c2, hf2, hu2, hs2⟩ := ha cid2 hcid2
              exact ⟨c2, hf2, hu2, List.mem_append_left _ hs2⟩
            · rw [List.mem_singleton] at hcid2
              subst hcid2
              exact ⟨c, hfind, hu, List.mem_append_right _ (by simp)⟩
          · intro cid2 hcid2 c2 hf2 hcond2
            rcases List.mem_append.mp hcid2 with hcid2 | hcid2
            · by_cases hcnew : (truthy stdTid && stdTid == some c.type_id) = true
              · exfalso
                obtain ⟨c2b, hf2b, -, hs2b⟩ := ha cid2 hcid2
                rw [hf2] at hf2b
                injection hf2b with hf2b
                subst hf2b
                have he1 : stdTid = some c.type_id := by
                  have := (Bool.and_eq_true ..).mp hcnew |>.2
                  simpa using this
                have he2 : stdTid = some c2.type_id := by
                  have := (Bool.and_eq_true ..).mp hcond2 |>.2
                  simpa using this
                rw [he1] at he2
                injection he2 with he2
                rw [he2] at hseen
                exact hseen hs2b
              · rw [if_neg hcnew]
                exact hb cid2 hcid2 c2 hf2 hcond2
            · rw [List.mem_singleton] at hcid2
              subst hcid2
              rw [hfind] at hf2
              injection hf2 with hf2
              subst hf2
              rw [if_pos hcond2]
          · intro cid2 h2
            by_cases hcnew : (truthy stdTid && stdTid == some c.type_id) = true
            · rw [if_pos hcnew] at h2
              injection h2 with h2
              subst h2
              exact ⟨List.mem_append_right _ (by simp), c, hfind, hcnew⟩
            · rw [if_neg hcnew] at h2
              obtain ⟨hmem, hrest⟩ := hc cid2 h2
              exact ⟨List.mem_append_left _ hmem, hrest⟩

/-- The UNCLASSIFIED fallback satisfies the same tracking properties. -/
theorem defaultCats_spec (db : DB) (uid : Nat) (stdTid : Option Nat)
    (hnd : (db.categories.map (fun c => c.id)).Nodup) :
    (∀ cid ∈ (defaultCats db uid stdTid).1, ∃ c, findCategory db cid = some c ∧
      c.user_id = some uid) ∧
    (∀ cid ∈ (defaultCats db uid stdTid).1, ∀ c, findCategory db cid = some c →
      (truthy stdTid && stdTid == some c.type_id) = true →
      (defaultCats db uid stdTid).2 = some cid) ∧
    (∀ cid, (defaultCats db uid stdTid).2 = some cid →
      cid ∈ (defaultCats db uid stdTid).1 ∧ ∃ c, findCategory db cid = some c ∧
        (truthy stdTid && stdTid == some c.type_id) = true) := by
  rw [defaultCats]
  cases hdc : unclassifiedCategory db uid with
  | none =>
    dsimp only
    exact ⟨fun cid h => absurd h (by simp),
      fun cid h => absurd h (by simp),
      fun cid h => by cases h⟩
  | some dc =>
    have hdcmem : dc ∈ db.categories := List.mem_of_find?_eq_some hdc
    have hdcu : dc.user_id = some uid := by
      have h2 := List.find?_some hdc
      rw [Bool.and_eq_true] at h2
      simpa using h2.2
    have hfind : findCategory db dc.id = some dc :=
      findCategory_eq_of_mem hnd hdcmem
    dsimp only
    refine ⟨?_, ?_, ?_⟩
    · intro cid hcid
      rw [List.mem_singleton] at hcid
      subst hcid
      exact ⟨dc, hfind, hdcu⟩
    · intro cid hcid c hcf hcond
      rw [List.mem_singleton] at hcid
      subst hcid
      rw [hfind] at hcf
      injection hcf with hcf
      subst hcf
      rw [if_pos hcond]
    · intro cid h2
      by_cases hcond : (truthy stdTid && stdTid == some dc.type_id) = true
      · rw [if_pos hcond] at h2
        injection h2 with h2
        subst h2
        exact ⟨by simp, dc, hfind, hcond⟩
      · rw [if_neg hcond] at h2
        cases h2

theorem linkedCats_fresh (links : List PaymentItemCategoryLink) (nid : Nat)
    (cids : List Nat) (it : PaymentItem) (hid : it.id = nid)
    (hfresh : ∀ L ∈ links, L.payment_item_id ≠ nid) :
    ((links ++ cids.map (fun cid => PaymentItemCategoryLink.mk nid cid)).filter
      (fun L => L.payment_item_id == it.id)).map (fun L => L.category_id) =
      cids := by
  rw [List.filter_append]
  have h1 : links.filter (fun L => L.payment_item_id == it.id) = [] := by
    rw [List.filter_eq_nil_iff]
    intro L hL
    simp only [beq_iff_eq, hid]
    exact hfresh L hL
  have h2 : (cids.map (fun cid => PaymentItemCategoryLink.mk nid cid)).filter
      (fun L => L.payment_item_id == it.id) =
      cids.map (fun cid => PaymentItemCategoryLink.mk nid cid) := by
    rw [List.filter_eq_self]
    intro L hL
    obtain ⟨cid2, -, rfl⟩ := List.mem_map.mp hL
    simp [hid]
  rw [h1, h2, List.nil_append, List.map_map]
  exact List.map_id _

theorem linkedCats_replaced (links : List PaymentItemCategoryLink)
    (item_id : Nat) (cids : List Nat) (it : PaymentItem) (hid : it.id = item_id) :
    (((links.filter (fun L => L.payment_item_id != item_id)) ++
      cids.map (fun cid => PaymentItemCategoryLink.mk item_id cid)).filter
        (fun L => L.payment_item_id == it.id)).map (fun L => L.category_id) =
      cids := by
  apply linkedCats_fresh _ item_id cids it hid
  intro L hL
  rw [List.mem_filter] at hL
  simpa using hL.2

/-- Common core of the C1 argument: the shortcut written by an endpoint
matches the spec invariant whenever the validation result tracks it. -/
theorem shortcut_core (db : DB) (hwf : WfDB db) (uid : Nat)
    (r : List Nat × Option Nat)
    (hstd1 : ∀ cid ∈ r.1, ∀ c, findCategory db cid = some c →
      (truthy (stdTypeId db uid) && stdTypeId db uid == some c.type_id) = true →
      r.2 = some cid)
    (hstd2 : ∀ cid, r.2 = some cid → cid ∈ r.1 ∧ ∃ c,
      findCategory db cid = some c ∧
      (truthy (stdTypeId db uid) && stdTypeId db uid == some c.type_id) = true)
    (db2 : DB) (it : PaymentItem)
    (hcats : db2.categories = db.categories)
    (htypes : db2.categoryTypes = db.categoryTypes)
    (hlinked : linkedCats db2 it = r.1)
    (huser : it.user_id = some uid)
    (hstd : it.standard_category_id = r.2) :
    StdShortcutOK db2 it := by
  have hstdid : stdTypeId db2 uid = stdTypeId db uid := by
    rw [stdTypeId, stdTypeId, standardType, standardType, htypes]
  have hIsStd : ∀ cid, IsStdCat db2 uid cid ↔
      (∃ c, findCategory db cid = some c ∧
        (truthy (stdTypeId db uid) && stdTypeId db uid == some c.type_id) = true) := by
    intro cid
    constructor
    · rintro ⟨c, hcmem, hcid, hctype⟩
      rw [hcats] at hcmem
      rw [hstdid] at hctype
      refine ⟨c, ?_, ?_⟩
      · rw [← hcid]
        exact findCategory_eq_of_mem hwf.catNodup hcmem
      · rw [Bool.and_eq_true]
        constructor
        · obtain ⟨T, hT, hTid⟩ := Option.map_eq_some'.mp hctype
          have hTmem : T ∈ db.categoryTypes := List.mem_of_find?_eq_some hT
          have hTpos := hwf.typeIdsPos T hTmem
          rw [stdTypeId, hT]
          simp only [Option.map_some', truthy]
          rw [bne_iff_ne]
          omega
        · rw [hctype]
          simp
    · rintro ⟨c, hcf, hcond⟩
      obtain ⟨hcmem, hcid⟩ := findCategory_mem hcf
      refine ⟨c, by rw [hcats]; exact hcmem, hcid, ?_⟩
      rw [hstdid]
      have := (Bool.and_eq_true ..).mp hcond |>.2
      simpa using this
  intro uid2 huid2
  rw [huser] at huid2
  injection huid2 with huid2
  subst huid2
  constructor
  · intro hnone
    cases hr2 : r.2 with
    | none => rw [hstd, hr2]
    | some cid =>
      exfalso
      obtain ⟨hmem, hex⟩ := hstd2 cid hr2
      exact hnone cid (by rw [hlinked]; exact hmem) ((hIsStd cid).mpr hex)
  · intro cid hcid hisstd
    rw [hlinked] at hcid
    obtain ⟨c, hcf, hcond⟩ := (hIsStd cid).mp hisstd
    rw [hstd]
    exact hstd1 cid hcid c hcf hcond

/-- C1 (amended): in a well-formed store, after every successful create,
and after every successful update whose payload supplies `category_ids`,
the item's standard shortcut equals the unique linked category of the
owner's standard dimension, or null when there is none.  (An update that
sets `standard_category_id` while omitting `category_ids` copies the
value verbatim and can violate the invariant — see the counterexample.) -/
theorem standard_shortcut_invariant (db : DB) (uid : Nat) (hwf : WfDB db) :
    (∀ (req : PaymentItemCreate) (db2 : DB) (it : PaymentItem),
      createPaymentItem uid req db = .ok (db2, it) → StdShortcutOK db2 it) ∧
    (∀ (item_id : Nat) (req : PaymentItemUpdatePayload) (cids : List Nat)
      (db2 : DB) (it : PaymentItem), req.category_ids = some cids →
      updatePaymentItem uid item_id req db = .ok (db2, it) →
      StdShortcutOK db2 it) := by
  have hfresh : ∀ L ∈ db.links, L.payment_item_id ≠ db.nextItemId := by
    intro L hL
    obtain ⟨it2, hit2, hid2⟩ := hwf.linkItems L hL
    have := hwf.itemIdsLt it2 hit2
    omega
  constructor
  · intro req db2 it hok
    rw [createPaymentItem] at hok
    by_cases h1 : (truthy req.recipient_id = true) ∧
        ((findRecipient db (req.recipient_id.getD 0)).isNone = true)
    · rw [if_pos h1] at hok
      cases hok
    · rw [if_neg h1] at hok
      by_cases h2 : (truthy req.recipient_id = true) ∧
          ((findRecipient db (req.recipient_id.getD 0)).map
            (fun r => r.user_id) ≠ some (some uid))
      · rw [if_pos h2] at hok
        cases hok
      · rw [if_neg h2] at hok
        dsimp only at hok
        by_cases hc : req.category_ids ≠ []
        · rw [if_pos hc] at hok
          cases hval : validateCats db uid
              (Option.map (fun t => t.id) (standardType db uid))
              req.category_ids [] [] none with
          | error e =>
            rw [hval] at hok
            cases hok
          | ok r =>
            obtain ⟨cids2, std⟩ := r
            rw [hval] at hok
            dsimp only at hok
            injection hok with hok
            injection hok with hA hB
            subst hA
            subst hB
            obtain ⟨-, hb2, hc2⟩ := validateCats_invariant db uid _
              req.category_ids [] [] none (cids2, std) hval
              (fun cid h => absurd h (by simp))
              (fun cid h => absurd h (by simp))
              (fun cid h => by cases h)
            exact shortcut_core db hwf uid (cids2, std) hb2 hc2 _ _
              rfl rfl
              (linkedCats_fresh db.links db.nextItemId cids2 _ rfl hfresh)
              rfl rfl
        · rw [if_neg hc] at hok
          dsimp only at hok
          injection hok with hok
          injection hok with hA hB
          subst hA
          subst hB
          obtain ⟨-, hb2, hc2⟩ := defaultCats_spec db uid
            (Option.map (fun t => t.id) (standardType db uid)) hwf.catNodup
          exact shortcut_core db hwf uid _ hb2 hc2 _ _
            rfl rfl
            (linkedCats_fresh db.links db.nextItemId _ _ rfl hfresh)
            rfl rfl
  · intro item_id req cids db2 it hcids hok
    rw [updatePaymentItem] at hok
    cases hfind : findItem db item_id with
    | none =>
      rw [hfind] at hok
      cases hok
    | some it0 =>
      rw [hfind] at hok
      dsimp only at hok
      by_cases hu : it0.user_id ≠ some uid
      · rw [if_pos hu] at hok
        cases hok
      · rw [if_neg hu] at hok
        rw [Ne, not_not] at hu
        have hid0 : it0.id = item_id := by
          have h3 := List.find?_some hfind
          simpa using h3
        cases hrr : req.recipient_id with
        | none =>
          rw [hrr] at hok
          dsimp only at hok
          rw [if_neg (by simp [truthy])] at hok
          rw [if_neg (by simp [truthy])] at hok
          rw [hcids] at hok
          dsimp only at hok
          by_cases hcne : cids ≠ []
          · rw [if_pos hcne] at hok
            cases hval : validateCats db uid
                (Option.map (fun t => t.id) (standardType db uid))
                cids [] [] none with
            | error e =>
              rw [hval] at hok
              cases hok
            | ok r =>
              obtain ⟨cids2, std⟩ := r
              rw [hval] at hok
              dsimp only at hok
              injection hok with hok
              injection hok with hA hB
              subst hA
              subst hB
              obtain ⟨-, hb2, hc2⟩ := validateCats_invariant db uid _
                cids [] [] none (cids2, std) hval
                (fun cid h => absurd h (by simp))
                (fun cid h => absurd h (by simp))
                (fun cid h => by cases h)
              exact shortcut_core db hwf uid (cids2, std) hb2 hc2 _ _
                rfl rfl
                (linkedCats_replaced db.links item_id cids2 _ hid0)
                hu rfl
          · rw [if_neg hcne] at hok
            dsimp only at hok
            injection hok with hok
            injection hok with hA hB
            subst hA
            subst hB
            obtain ⟨-, hb2, hc2⟩ := defaultCats_spec db uid
              (Option.map (fun t => t.id) (standardType db uid)) hwf.catNodup
            exact shortcut_core db hwf uid _ hb2 hc2 _ _
              rfl rfl
              (linkedCats_replaced db.links item_id _ _ hid0)
              hu rfl
        | some rr =>
          rw [hrr] at hok
          dsimp only at hok
          by_cases h1 : (truthy rr = true) ∧
              ((findRecipient db (rr.getD 0)).isNone = true)
          · rw [if_pos h1] at hok
            cases hok
          · rw [if_neg h1] at hok
            by_cases h2 : (truthy rr = true) ∧
                ((findRecipient db (rr.getD 0)).map
                  (fun r => r.user_id) ≠ some (some uid))
            · rw [if_pos h2] at hok
              cases hok
            · rw [if_neg h2] at hok
              rw [hcids] at hok
              dsimp only at hok
              by_cases hcne : cids ≠ []
              · rw [if_pos hcne] at hok
                cases hval : validateCats db uid
                    (Option.map (fun t => t.id) (standardType db uid))
                    cids [] [] none with
                | error e =>
                  rw [hval] at hok
                  cases hok
                | ok r =>
                  obtain ⟨cids2, std⟩ := r
                  rw [hval] at hok
                  dsimp only at hok
                  injection hok with hok
                  injection hok with hA hB
                  subst hA
                  subst hB
                  obtain ⟨-, hb2, hc2⟩ := validateCats_invariant db uid _
                    cids [] [] none (cids2, std) hval
                    (fun cid h => absurd h (by simp))
                    (fun cid h => absurd h (by simp))
                    (fun cid h => by cases h)
                  exact shortcut_core db hwf uid (cids2, std) hb2 hc2 _ _
                    rfl rfl
                    (linkedCats_replaced db.links item_id cids2 _ hid0)
                    hu rfl
              · rw [if_neg hcne] at hok
                dsimp only at hok
                injection hok with hok
                injection hok with hA hB
                subst hA
                subst hB
                obtain ⟨-, hb2, hc2⟩ := defaultCats_spec db uid
                  (Option.map (fun t => t.id) (standardType db uid)) hwf.catNodup
                exact shortcut_core db hwf uid _ hb2 hc2 _ _
                  rfl rfl
                  (linkedCats_replaced db.links item_id _ _ hid0)
                  hu rfl

/-- C1 witness: creating an item tagged with standard tag 3 in the
concrete store yields shortcut 3, satisfying the invariant. -/
theorem standard_shortcut_invariant_witness :
    StdShortcutOK
      { dbC2 with
        items := [PaymentItem.mk 1 5 (DateV.mk 2024 1 1) false none none
          (some 3) (some 1)],
        links := [PaymentItemCategoryLink.mk 1 3],
        nextItemId := 2 }
      (PaymentItem.mk 1 5 (DateV.mk 2024 1 1) false none none (some 3)
        (some 1)) :=
  (standard_shortcut_invariant dbC2 1
      ⟨by decide, by decide, by decide, by decide, by decide, by decide,
       by decide, by decide⟩).1
    (PaymentItemCreate.mk 5 (DateV.mk 2024 1 1) false none none none [3])
    _ _ rfl

/-! ## C4: normalized-name uniqueness of tag nodes -/

/-- Owner-scoped normalized-name distinctness of two tag rows. -/
def RName (a b : Category) : Prop :=
  ∀ uid, a.user_id = some uid → b.user_id = some uid →
    normalizeL a.name ≠ normalizeL b.name

/-- C4 invariant: no two live tag nodes of one owner share a normalized
name. -/
def CatNamesUnique (db : DB) : Prop := db.categories.Pairwise RName

/-- Category-table well-formedness needed to preserve the invariant. -/
structure CatWf (db : DB) : Prop where
  idsLt : ∀ c ∈ db.categories, c.id < db.nextCategoryId
  nodup : (db.categories.map (fun c => c.id)).Nodup

theorem RName_symm {a b : Category} (h : RName a b) : RName b a := by
  intro uid hb ha
  exact (h uid ha hb).symm

theorem RName_congr_left {x x' y : Category} (hu : x.user_id = x'.user_id)
    (hn : x.name = x'.name) (h : RName x' y) : RName x y := by
  intro uid h1 h2
  rw [hn]
  exact h uid (by rw [← hu]; exact h1) h2

theorem createCategory_preserves {uid : Nat} {req : CategoryCreate}
    {db db2 : DB} {c : Category}
    (hok : createCategory uid req db = .ok (db2, c))
    (hwf : CatWf db) (hun : CatNamesUnique db) :
    CatWf db2 ∧ CatNamesUnique db2 := by
  rw [createCategory] at hok
  by_cases h1 : ((normalizeL req.name).isEmpty = true)
  · rw [if_pos h1] at hok
    cases hok
  · rw [if_neg h1] at hok
    by_cases h2 : ((db.categories.filter (fun c2 => c2.user_id == some uid)).any
        (fun c2 => normalizeL c2.name == normalizeL req.name)) = true
    · rw [if_pos h2] at hok
      cases hok
    · rw [if_neg h2] at hok
      by_cases h3 : (truthy req.parent_id &&
          (findCategory db (req.parent_id.getD 0)).isNone) = true
      · rw [if_pos h3] at hok
        cases hok
      · rw [if_neg h3] at hok
        by_cases h4 : ((findCategoryType db req.type_id).isNone = true)
        · rw [if_pos h4] at hok
          cases hok
        · rw [if_neg h4] at hok
          dsimp only at hok
          injection hok with hok
          injection hok with hA hB
          subst hA
          have h2f := List.any_eq_false.mp (Bool.not_eq_true _ |>.mp h2)
          refine ⟨⟨?_, ?_⟩, ?_⟩
          · intro c2 hc2
            show c2.id < db.nextCategoryId + 1
            rcases List.mem_append.mp hc2 with hc2 | hc2
            · have := hwf.idsLt c2 hc2
              omega
            · rw [List.mem_singleton] at hc2
              subst hc2
              exact Nat.lt_succ_self _
          · rw [List.map_append, List.nodup_append]
            refine ⟨hwf.nodup, by simp, ?_⟩
            intro x hx hx2
            simp only [List.map_cons, List.map_nil, List.mem_singleton] at hx2
            obtain ⟨c3, hc3, hc3id⟩ := List.mem_map.mp hx
            have := hwf.idsLt c3 hc3
            omega
          · rw [CatNamesUnique, List.pairwise_append]
            refine ⟨hun, List.pairwise_singleton _ _, ?_⟩
            intro a ha b hb
            rw [List.mem_singleton] at hb
            subst hb
            intro uid2 hau hbu
            injection hbu with hbu
            subst hbu
            have hmem : a ∈ db.categories.filter
                (fun c2 => c2.user_id == some uid) :=
              List.mem_filter.mpr ⟨ha, by simp [hau]⟩
            have hne := h2f a hmem
            intro heq
            apply hne
            simp only [beq_iff_eq]
            rw [heq]
            exact normalizeL_idem req.name

theorem map_replace_preserves {db : DB} (hwf : CatWf db)
    (hun : CatNamesUnique db) {category_id : Nat} {category updated : Category}
    (hfind : findCategory db category_id = some category)
    (hid : updated.id = category.id)
    (hrel : ∀ b ∈ db.categories, b ≠ category → RName category b →
      RName updated b) :
    (∀ c2 ∈ db.categories.map
        (fun x => if x.id == category_id then updated else x),
      c2.id < db.nextCategoryId) ∧
    ((db.categories.map
        (fun x => if x.id == category_id then updated else x)).map
      (fun c2 => c2.id)).Nodup ∧
    (db.categories.map
        (fun x => if x.id == category_id then updated else x)).Pairwise RName := by
  obtain ⟨hcatmem, hcatid⟩ := findCategory_mem hfind
  have hunique : ∀ x ∈ db.categories, x.id = category_id → x = category := by
    intro x hx hxid
    have hfx : findCategory db x.id = some x :=
      find_by_id_eq_of_mem hwf.nodup hx
    rw [hxid, hfind] at hfx
    injection hfx with hfx
    exact hfx.symm
  have hfid : ∀ x : Category,
      (if x.id == category_id then updated else x).id = x.id := by
    intro x
    by_cases hx : (x.id == category_id) = true
    · rw [if_pos hx, hid, hcatid]
      exact (beq_iff_eq.mp hx).symm
    · rw [if_neg hx]
  refine ⟨?_, ?_, ?_⟩
  · intro c2 hc2
    obtain ⟨x, hx, rfl⟩ := List.mem_map.mp hc2
    rw [hfid x]
    exact hwf.idsLt x hx
  · rw [List.map_map]
    have hcomp : ((fun c2 => c2.id) ∘
        fun x => if x.id == category_id then updated else x) =
        fun c2 => c2.id := by
      funext x
      exact hfid x
    rw [hcomp]
    exact hwf.nodup
  · rw [List.pairwise_map]
    have helems : db.categories.Nodup := List.Nodup.of_map _ hwf.nodup
    have hcomb := List.Pairwise.and hun helems
    refine List.Pairwise.imp_of_mem ?_ hcomb
    intro a b ha hb hab
    obtain ⟨hR, hne⟩ := hab
    by_cases hma : (a.id == category_id) = true
    · have ha2 : a = category := hunique a ha (beq_iff_eq.mp hma)
      by_cases hmb : (b.id == category_id) = true
      · have hb2 : b = category := hunique b hb (beq_iff_eq.mp hmb)
        exact absurd (ha2.trans hb2.symm) hne
      · rw [if_pos hma, if_neg hmb]
        subst ha2
        exact hrel b hb (fun hbc => hne hbc.symm) hR
    · by_cases hmb : (b.id == category_id) = true
      · have hb2 : b = category := hunique b hb (beq_iff_eq.mp hmb)
        rw [if_neg hma, if_pos hmb]
        subst hb2
        exact RName_symm (hrel a ha (fun hac => hne hac) (RName_symm hR))
      · rw [if_neg hma, if_neg hmb]
        exact hR

theorem updateCategory_preserves {uid category_id : Nat}
    {req : CategoryUpdatePayload} {db db2 : DB} {c : Category}
    (hok : updateCategory uid category_id req db = .ok (db2, c))
    (hwf : CatWf db) (hun : CatNamesUnique db) :
    CatWf db2 ∧ CatNamesUnique db2 := by
  rw [updateCategory] at hok
  cases hfind : findCategory db category_id with
  | none =>
    rw [hfind] at hok
    cases hok
  | some category =>
    rw [hfind] at hok
    dsimp only at hok
    by_cases hu : category.user_id ≠ some uid
    · rw [if_pos hu] at hok
      cases hok
    · rw [if_neg hu] at hok
      rw [Ne, not_not] at hu
      have hunique : ∀ x ∈ db.categories, x.id = category_id → x = category := by
        intro x hx hxid
        have hfx : findCategory db x.id = some x :=
          find_by_id_eq_of_mem hwf.nodup hx
        rw [hxid, hfind] at hfx
        injection hfx with hfx
        exact hfx.symm
      cases hname : req.name with
      | none =>
        rw [hname] at hok
        dsimp only at hok
        by_cases hp : (match req.parent_id with
            | some (some pid) => (findCategory db pid).isNone
            | _ => false) = true
        · rw [if_pos hp] at hok
          cases hok
        · rw [if_neg hp] at hok
          cases htid : req.type_id with
          | none =>
            rw [htid] at hok
            dsimp only at hok
            injection hok with hok
            injection hok with hA hB
            rw [hB] at hA
            subst hA
            have hidc : c.id = category.id := by rw [← hB]
            have hrelc : ∀ b ∈ db.categories, b ≠ category →
                RName category b → RName c b := by
              intro b hb hbne hR
              rw [← hB]
              intro uid2 hcu hbu
              dsimp only at hcu ⊢
              exact hR uid2 hcu hbu
            obtain ⟨hx1, hx2, hx3⟩ :=
              map_replace_preserves hwf hun hfind hidc hrelc
            exact ⟨⟨hx1, hx2⟩, hx3⟩
          | some tOpt =>
            cases tOpt with
            | none =>
              rw [htid] at hok
              dsimp only at hok
              cases hok
            | some t =>
              rw [htid] at hok
              dsimp only at hok
              by_cases ht : ((findCategoryType db t).isNone = true)
              · rw [if_pos ht] at hok
                cases hok
              · rw [if_neg ht] at hok
                injection hok with hok
                injection hok with hA hB
                rw [hB] at hA
                subst hA
                have hidc : c.id = category.id := by rw [← hB]
                have hrelc : ∀ b ∈ db.categories, b ≠ category →
                    RName category b → RName c b := by
                  intro b hb hbne hR
                  rw [← hB]
                  intro uid2 hcu hbu
                  dsimp only at hcu ⊢
                  exact hR uid2 hcu hbu
                obtain ⟨hx1, hx2, hx3⟩ :=
                  map_replace_preserves hwf hun hfind hidc hrelc
                exact ⟨⟨hx1, hx2⟩, hx3⟩
      | some nameInner =>
        cases nameInner with
        | none =>
          rw [hname] at hok
          dsimp only at hok
          by_cases hp : (match req.parent_id with
              | some (some pid) => (findCategory db pid).isNone
              | _ => false) = true
          · rw [if_pos hp] at hok
            cases hok
          · rw [if_neg hp] at hok
            by_cases ht : (match req.type_id with
                | some (some tid) => (findCategoryType db tid).isNone
                | _ => false) = true
            · rw [if_pos ht] at hok
              cases hok
            · rw [if_neg ht] at hok
              cases htid : req.type_id with
              | none =>
                rw [htid] at hok
                cases hok
              | some tOpt =>
                cases tOpt with
                | none =>
                  rw [htid] at hok
                  cases hok
                | some t =>
                  rw [htid] at hok
                  cases hok
        | some raw =>
          rw [hname] at hok
          dsimp only at hok
          by_cases hemp : ((normalizeL raw).isEmpty = true)
          · rw [if_pos hemp] at hok
            cases hok
          · rw [if_neg hemp] at hok
            by_cases hcol : ((db.categories.filter
                (fun c2 => c2.id != category_id && c2.user_id == some uid)).any
                (fun c2 => normalizeL c2.name == normalizeL raw)) = true
            · rw [if_pos hcol] at hok
              cases hok
            · rw [if_neg hcol] at hok
              dsimp only at hok
              have hcolf := List.any_eq_false.mp (Bool.not_eq_true _ |>.mp hcol)
              have hrel : ∀ b ∈ db.categories, b ≠ category →
                  RName category b →
                  ∀ uid2, category.user_id = some uid2 →
                    b.user_id = some uid2 →
                    normalizeL (normalizeL raw) ≠ normalizeL b.name := by
                intro b hb hbne hR uid2 hcu2 hbu2
                rw [hu] at hcu2
                injection hcu2 with hcu2
                subst hcu2
                have hbid : b.id ≠ category_id := by
                  intro hbid
                  exact hbne (hunique b hb hbid)
                have hbmem : b ∈ db.categories.filter
                    (fun c2 => c2.id != category_id &&
                      c2.user_id == some uid) := by
                  rw [List.mem_filter]
                  refine ⟨hb, ?_⟩
                  rw [Bool.and_eq_true]
                  exact ⟨by simpa using hbid, by simp [hbu2]⟩
                have hbne2 := hcolf b hbmem
                rw [normalizeL_idem]
                intro heq
                apply hbne2
                simp only [beq_iff_eq]
                exact heq.symm
              by_cases hp : (match req.parent_id with
                  | some (some pid) => (findCategory db pid).isNone
                  | _ => false) = true
              · rw [if_pos hp] at hok
                cases hok
              · rw [if_neg hp] at hok
                cases htid : req.type_id with
                | none =>
                  rw [htid] at hok
                  dsimp only at hok
                  injection hok with hok
                  injection hok with hA hB
                  rw [hB] at hA
                  subst hA
                  have hidc : c.id = category.id := by rw [← hB]
                  have hrelc : ∀ b ∈ db.categories, b ≠ category →
                      RName category b → RName c b := by
                    intro b hb hbne hR
                    rw [← hB]
                    intro uid2 hcu hbu
                    dsimp only at hcu ⊢
                    exact hrel b hb hbne hR uid2 hcu hbu
                  obtain ⟨hx1, hx2, hx3⟩ :=
                    map_replace_preserves hwf hun hfind hidc hrelc
                  exact ⟨⟨hx1, hx2⟩, hx3⟩
                | some tOpt =>
                  cases tOpt with
                  | none =>
                    rw [htid] at hok
                    dsimp only at hok
                    cases hok
                  | some t =>
                    rw [htid] at hok
                    dsimp only at hok
                    by_cases ht : ((findCategoryType db t).isNone = true)
                    · rw [if_pos ht] at hok
                      cases hok
                    · rw [if_neg ht] at hok
                      injection hok with hok
                      injection hok with hA hB
                      rw [hB] at hA
                      subst hA
                      have hidc : c.id = category.id := by rw [← hB]
                      have hrelc : ∀ b ∈ db.categories, b ≠ category →
                          RName category b → RName c b := by
                        intro b hb hbne hR
                        rw [← hB]
                        intro uid2 hcu hbu
                        dsimp only at hcu ⊢
                        exact hrel b hb hbne hR uid2 hcu hbu
                      obtain ⟨hx1, hx2, hx3⟩ :=
                        map_replace_preserves hwf hun hfind hidc hrelc
                      exact ⟨⟨hx1, hx2⟩, hx3⟩

theorem mkParsedRow_norm (row : List Str) :
    normalizeL (mkParsedRow row).normalized_category =
      (mkParsedRow row).normalized_category := by
  simp only [mkParsedRow]
  by_cases h : ((pyStrip (row.getD 5 [])).isEmpty = true)
  · rw [if_pos h]
    rfl
  · rw [if_neg h]
    exact normalizeL_idem _

theorem categoryNamesOf_mem_aux (rows : List ParsedRow) :
    ∀ (acc : List Str) (name : Str),
      name ∈ rows.foldl
        (fun acc row =>
          if row.normalized_category.isEmpty then acc
          else if row.normalized_category ∈ acc then acc
          else acc ++ [row.normalized_category]) acc →
      name ∈ acc ∨ ∃ r ∈ rows, name = r.normalized_category := by
  induction rows with
  | nil =>
    intro acc name h
    exact .inl h
  | cons r rs ih =>
    intro acc name h
    rw [List.foldl_cons] at h
    rcases ih _ name h with hacc | ⟨r2, hr2, hname⟩
    · by_cases h1 : (r.normalized_category.isEmpty = true)
      · rw [if_pos h1] at hacc
        exact .inl hacc
      · rw [if_neg h1] at hacc
        by_cases h2 : r.normalized_category ∈ acc
        · rw [if_pos h2] at hacc
          exact .inl hacc
        · rw [if_neg h2] at hacc
          rcases List.mem_append.mp hacc with h3 | h3
          · exact .inl h3
          · rw [List.mem_singleton] at h3
            exact .inr ⟨r, List.mem_cons_self _ _, h3⟩
    · exact .inr ⟨r2, List.mem_cons_of_mem _ hr2, hname⟩

theorem categoryNamesOf_nodup_aux (rows : List ParsedRow) :
    ∀ acc : List Str, acc.Nodup →
      (rows.foldl
        (fun acc row =>
          if row.normalized_category.isEmpty then acc
          else if row.normalized_category ∈ acc then acc
          else acc ++ [row.normalized_category]) acc).Nodup := by
  induction rows with
  | nil =>
    intro acc h
    exact h
  | cons r rs ih =>
    intro acc h
    rw [List.foldl_cons]
    apply ih
    by_cases h1 : (r.normalized_category.isEmpty = true)
    · rw [if_pos h1]
      exact h
    · rw [if_neg h1]
      by_cases h2 : r.normalized_category ∈ acc
      · rw [if_pos h2]
        exact h
      · rw [if_neg h2]
        rw [List.nodup_append]
        refine ⟨h, List.nodup_singleton _, ?_⟩
        intro a ha hx
        rw [List.mem_singleton] at hx
        subst hx
        exact h2 ha

theorem categoryNamesOf_nodup (rows : List ParsedRow) :
    (categoryNamesOf rows).Nodup :=
  categoryNamesOf_nodup_aux rows [] List.nodup_nil

theorem categoryNamesOf_norm (rows : List ParsedRow)
    (hr : ∀ r ∈ rows, normalizeL r.normalized_category = r.normalized_category) :
    ∀ name ∈ categoryNamesOf rows, normalizeL name = name := by
  intro name hname
  rcases categoryNamesOf_mem_aux rows [] name hname with h | ⟨r, hr2, rfl⟩
  · cases h
  · exact hr r hr2

theorem categoryLookup_none {db : DB} {uid : Nat} {n : Str}
    (h : categoryLookup db uid n = none) :
    ∀ c ∈ db.categories, c.user_id = some uid → normalizeL c.name ≠ n := by
  intro c hc hcu
  rw [categoryLookup] at h
  have hmem : c ∈ (db.categories.filter
      (fun c2 => c2.user_id == some uid)).reverse := by
    rw [List.mem_reverse, List.mem_filter]
    exact ⟨hc, by simp [hcu]⟩
  have h2 := List.find?_eq_none.mp h c hmem
  simpa using h2

theorem catFold_inv (db : DB) (uid tid : Nat) :
    ∀ (names : List Str) (st : CatPhase),
      names.Nodup →
      (∀ n ∈ names, normalizeL n = n) →
      (∀ c ∈ st.categories, c.id < st.nextId) →
      (st.categories.map (fun c => c.id)).Nodup →
      st.categories.Pairwise RName →
      (∀ c ∈ st.categories, c ∈ db.categories ∨
        (normalizeL c.name = c.name ∧ c.name ∉ names)) →
      (∀ c ∈ (names.foldl
          (catStep (categoryLookup db uid) uid tid) st).categories,
        c.id < (names.foldl
          (catStep (categoryLookup db uid) uid tid) st).nextId) ∧
      ((names.foldl
          (catStep (categoryLookup db uid) uid tid) st).categories.map
        (fun c => c.id)).Nodup ∧
      (names.foldl
        (catStep (categoryLookup db uid) uid tid) st).categories.Pairwise RName := by
  intro names
  induction names with
  | nil =>
    intro st _ _ h1 h2 h3 _
    exact ⟨h1, h2, h3⟩
  | cons n ns ih =>
    intro st hnd hnorm h1 h2 h3 h4
    rw [List.foldl_cons]
    simp only [catStep]
    cases hlook : categoryLookup db uid n with
    | some existing =>
      refine ih _ (List.nodup_cons.mp hnd).2
        (fun m hm => hnorm m (List.mem_cons_of_mem _ hm)) h1 h2 h3 ?_
      intro c hc
      rcases h4 c hc with hdb | ⟨hn1, hn2⟩
      · exact .inl hdb
      · exact .inr ⟨hn1, fun hm => hn2 (List.mem_cons_of_mem _ hm)⟩
    | none =>
      refine ih _ (List.nodup_cons.mp hnd).2
        (fun m hm => hnorm m (List.mem_cons_of_mem _ hm)) ?_ ?_ ?_ ?_
      · intro c hc
        show c.id < st.nextId + 1
        rcases List.mem_append.mp hc with hc | hc
        · have := h1 c hc
          omega
        · rw [List.mem_singleton] at hc
          subst hc
          exact Nat.lt_succ_self _
      · show ((st.categories ++
            [Category.mk st.nextId n tid none none (some uid)]).map
          (fun c => c.id)).Nodup
        rw [List.map_append, List.nodup_append]
        refine ⟨h2, by simp, ?_⟩
        intro x hx hx2
        simp only [List.map_cons, List.map_nil, List.mem_singleton] at hx2
        obtain ⟨c3, hc3, hc3id⟩ := List.mem_map.mp hx
        have := h1 c3 hc3
        omega
      · show (st.categories ++
            [Category.mk st.nextId n tid none none (some uid)]).Pairwise RName
        rw [List.pairwise_append]
        refine ⟨h3, List.pairwise_singleton _ _, ?_⟩
        intro a ha b hb
        rw [List.mem_singleton] at hb
        subst hb
        intro uid2 hau hbu
        have hbu2 : some uid = some uid2 := hbu
        injection hbu2 with hbu2
        subst hbu2
        show normalizeL a.name ≠ normalizeL n
        rw [hnorm n (List.mem_cons_self _ _)]
        rcases h4 a ha with hdb | ⟨hn1, hn2⟩
        · exact categoryLookup_none hlook a hdb hau
        · rw [hn1]
          intro heq
          apply hn2
          rw [heq]
          exact List.mem_cons_self _ _
      · intro c hc
        rcases List.mem_append.mp hc with hc | hc
        · rcases h4 c hc with hdb | ⟨hn1, hn2⟩
          · exact .inl hdb
          · exact .inr ⟨hn1, fun hm => hn2 (List.mem_cons_of_mem _ hm)⟩
        · rw [List.mem_singleton] at hc
          subst hc
          refine .inr ⟨?_, ?_⟩
          · show normalizeL n = n
            exact hnorm n (List.mem_cons_self _ _)
          · show n ∉ ns
            exact (List.nodup_cons.mp hnd).1

theorem importCsv_preserves {uid : Nat} {rows : List (List Str)}
    {db db2 : DB} {rep : ImportReport}
    (hok : importCsv uid rows db = .ok (db2, rep))
    (hwf : CatWf db) (hun : CatNamesUnique db) :
    CatWf db2 ∧ CatNamesUnique db2 := by
  cases rows with
  | nil =>
    cases hok
  | cons header_row data_rows =>
    simp only [importCsv] at hok
    by_cases hh : List.intercalate ";".toList (header_row.map pyStrip) ≠ CSV_HEADER
    · rw [if_pos hh] at hok
      cases hok
    · rw [if_neg hh] at hok
      rcases parseDataRows_cases 2 data_rows with ⟨hpd, hall⟩ | ⟨j, f, hpd⟩
      · rw [hpd] at hok
        dsimp only at hok
        by_cases hemp : (((data_rows.filter
            (fun r => !blankRow r)).map mkParsedRow).isEmpty = true)
        · rw [if_pos hemp] at hok
          cases hok
        · rw [if_neg hemp] at hok
          cases hstd : standardType db uid with
          | none =>
            rw [hstd] at hok
            cases hok
          | some stdt =>
            rw [hstd] at hok
            dsimp only at hok
            injection hok with hok
            injection hok with hA hB
            subst hA
            have hnorms : ∀ r ∈ (data_rows.filter
                (fun r2 => !blankRow r2)).map mkParsedRow,
                normalizeL r.normalized_category = r.normalized_category := by
              intro r hr
              obtain ⟨row, hrow, rfl⟩ := List.mem_map.mp hr
              exact mkParsedRow_norm row
            obtain ⟨k1, k2, k3⟩ := catFold_inv db uid stdt.id
              (categoryNamesOf ((data_rows.filter
                (fun r => !blankRow r)).map mkParsedRow))
              (CatPhase.mk db.categories db.nextCategoryId 0 [])
              (categoryNamesOf_nodup _)
              (categoryNamesOf_norm _ hnorms)
              hwf.idsLt hwf.nodup hun (fun c hc => Or.inl hc)
            exact ⟨⟨k1, k2⟩, k3⟩
      · rw [hpd] at hok
        cases hok

/-- One category-affecting operation of the API surface. -/
inductive CatOp where
  | create (uid : Nat) (req : CategoryCreate)
  | update (uid category_id : Nat) (req : CategoryUpdatePayload)
  | importOp (uid : Nat) (rows : List (List Str))

/-- Apply one operation, keeping only the resulting store. -/
def applyCatOp (db : DB) : CatOp → Except ApiError DB
  | .create uid req =>
    match createCategory uid req db with
    | .error e => .error e
    | .ok (db2, _) => .ok db2
  | .update uid category_id req =>
    match updateCategory uid category_id req db with
    | .error e => .error e
    | .ok (db2, _) => .ok db2
  | .importOp uid rows =>
    match importCsv uid rows db with
    | .error e => .error e
    | .ok (db2, _) => .ok db2

/-- Run a sequence of operations, each of which must succeed. -/
def runOps : List CatOp → DB → Except ApiError DB
  | [], db => .ok db
  | op :: ops, db =>
    match applyCatOp db op with
    | .error e => .error e
    | .ok db2 => runOps ops db2

theorem runOps_preserves :
    ∀ (ops : List CatOp) (db db2 : DB),
      runOps ops db = .ok db2 → CatWf db → CatNamesUnique db →
      CatWf db2 ∧ CatNamesUnique db2 := by
  intro ops
  induction ops with
  | nil =>
    intro db db2 h hwf hun
    simp only [runOps] at h
    injection h with h
    subst h
    exact ⟨hwf, hun⟩
  | cons op ops ih =>
    intro db db2 h hwf hun
    simp only [runOps] at h
    cases hap : applyCatOp db op with
    | error e =>
      rw [hap] at h
      cases h
    | ok db1 =>
      rw [hap] at h
      dsimp only at h
      have hmid : CatWf db1 ∧ CatNamesUnique db1 := by
        cases op with
        | create uid req =>
          simp only [applyCatOp] at hap
          cases hc : createCategory uid req db with
          | error e =>
            rw [hc] at hap
            cases hap
          | ok p =>
            obtain ⟨pdb, pc⟩ := p
            rw [hc] at hap
            dsimp only at hap
            injection hap with hap
            subst hap
            exact createCategory_preserves hc hwf hun
        | update uid category_id req =>
          simp only [applyCatOp] at hap
          cases hc : updateCategory uid category_id req db with
          | error e =>
            rw [hc] at hap
            cases hap
          | ok p =>
            obtain ⟨pdb, pc⟩ := p
            rw [hc] at hap
            dsimp only at hap
            injection hap with hap
            subst hap
            exact updateCategory_preserves hc hwf hun
        | importOp uid rows =>
          simp only [applyCatOp] at hap
          cases hc : importCsv uid rows db with
          | error e =>
            rw [hc] at hap
            cases hap
          | ok p =>
            obtain ⟨pdb, prep⟩ := p
            rw [hc] at hap
            dsimp only at hap
            injection hap with hap
            subst hap
            exact importCsv_preserves hc hwf hun
      exact ih db1 db2 h hmid.1 hmid.2

/-- C4: after any successful sequence of category creates, category
updates and CSV imports, no two live tag nodes of one owner share a
normalized name (the table stays `CatNamesUnique`); and a single create
or update whose normalized name collides with a different existing
category of the same owner fails with the Conflict error
`conflictCategoryName`. -/
theorem catNames_unique :
    (∀ (ops : List CatOp) (db db2 : DB),
        runOps ops db = .ok db2 → CatWf db → CatNamesUnique db →
        CatNamesUnique db2) ∧
    (∀ (uid : Nat) (req : CategoryCreate) (db : DB) (c : Category),
        (normalizeL req.name).isEmpty = false →
        c ∈ db.categories → c.user_id = some uid →
        normalizeL c.name = normalizeL req.name →
        createCategory uid req db = .error .conflictCategoryName) ∧
    (∀ (uid category_id : Nat) (req : CategoryUpdatePayload) (db : DB)
        (category c2 : Category) (raw : Str),
        findCategory db category_id = some category →
        category.user_id = some uid →
        req.name = some (some raw) →
        (normalizeL raw).isEmpty = false →
        c2 ∈ db.categories → c2.id ≠ category_id → c2.user_id = some uid →
        normalizeL c2.name = normalizeL raw →
        updateCategory uid category_id req db = .error .conflictCategoryName) := by
  refine ⟨?_, ?_, ?_⟩
  · intro ops db db2 h hwf hun
    exact (runOps_preserves ops db db2 h hwf hun).2
  · intro uid req db c hne hc hcu hcoll
    rw [createCategory]
    dsimp only
    rw [if_neg (by rw [hne]; exact Bool.false_ne_true)]
    have hany : ((db.categories.filter (fun c3 => c3.user_id == some uid)).any
        (fun c3 => normalizeL c3.name == normalizeL req.name)) = true := by
      rw [List.any_eq_true]
      refine ⟨c, ?_, ?_⟩
      · rw [List.mem_filter]
        exact ⟨hc, by simp [hcu]⟩
      · simp [hcoll]
    rw [if_pos hany]
  · intro uid category_id req db category c2 raw hfind hu hname hraw hc2
      hc2id hc2u hcoll
    rw [updateCategory, hfind]
    dsimp only
    rw [if_neg (not_not_intro hu)]
    rw [hname]
    dsimp only
    rw [if_neg (by rw [hraw]; exact Bool.false_ne_true)]
    have hany : ((db.categories.filter
        (fun c3 => c3.id != category_id && c3.user_id == some uid)).any
        (fun c3 => normalizeL c3.name == normalizeL raw)) = true := by
      rw [List.any_eq_true]
      refine ⟨c2, ?_, ?_⟩
      · rw [List.mem_filter]
        refine ⟨hc2, ?_⟩
        rw [Bool.and_eq_true]
        exact ⟨by simpa using hc2id, by simp [hc2u]⟩
      · simp [hcoll]
    rw [if_pos hany]

def catFW : Category := ⟨1, "Food".toList, 1, none, none, some 1⟩

def catDW : Category := ⟨2, "Drinks".toList, 1, none, none, some 1⟩

def db4 : DB :=
  ⟨[⟨1, "standard".toList, none, some 1⟩], [catFW], [], [], [], 2, 1, 1⟩

def db4b : DB :=
  ⟨[⟨1, "standard".toList, none, some 1⟩], [catFW, catDW], [], [], [], 3, 1, 1⟩

def reqW : CategoryCreate := ⟨"Drinks".toList, 1, none, none⟩

def reqW2 : CategoryCreate := ⟨"Food".toList, 1, none, none⟩

def reqW3 : CategoryUpdatePayload := ⟨some (some "Food".toList), none, none, none⟩

theorem catNames_unique_witness :
    CatNamesUnique db4b ∧
    createCategory 1 reqW2 db4 = .error .conflictCategoryName ∧
    updateCategory 1 2 reqW3 db4b = .error .conflictCategoryName := by
  refine ⟨?_, ?_, ?_⟩
  · exact catNames_unique.1 [CatOp.create 1 reqW] db4 db4b rfl
      ⟨by decide, by decide⟩ (List.pairwise_singleton _ _)
  · exact catNames_unique.2.1 1 reqW2 db4 catFW (by decide) (by decide) rfl
      (by decide)
  · exact catNames_unique.2.2 1 2 reqW3 db4b catDW catFW ("Food".toList)
      (by decide) rfl rfl (by decide) (by decide) (by decide) rfl (by decide)

end FB
